import Mathlib

/-!
Verification of the spyce in-place structured-text editing engine.

The definitions below are a shallow embedding of `src/spyce/spyce.py` and
`src/spyce/api.py`: text is modelled as `List Char`, binary payloads as
`List Nat` with every element below 256, and file lines as `List Char`
(each line newline-terminated, as produced by `readlines`). Fallible
Python code is modelled with `Option`/`Except`.
-/

set_option maxHeartbeats 1000000

/-- Characters of a string literal, used to embed Python string literals. -/
def s2l (s : String) : List Char := s.data

/-- The newline character. -/
def nlC : Char := '\n'

/-- Python `str.strip` whitespace set, restricted to ASCII (the only
whitespace characters reachable in this code base). -/
def isWsC (c : Char) : Bool :=
  c == ' ' || c == '\t' || c == '\n' || c == '\r' || c == Char.ofNat 11 || c == Char.ofNat 12

/-- Python `str.strip()`: remove leading and trailing whitespace. -/
def pyStrip (l : List Char) : List Char :=
  ((l.dropWhile isWsC).reverse.dropWhile isWsC).reverse

example : pyStrip (s2l " ab \n") = s2l "ab" := by decide

/-! ## Python-style slicing loops

`for index in range(0, len(data), step): data[index:index+step]` -/

/-- The chunks `data[0:step], data[step:2*step], ...` produced by a Python
loop `for index in range(0, len(data), step)`. -/
def pyChunks (step : Nat) (l : List α) : List (List α) :=
  (List.range ((l.length + step - 1) / step)).map (fun i => ((l.drop (i * step)).take step))

theorem pyChunks_nil (step : Nat) : pyChunks step ([] : List α) = [] := by
  unfold pyChunks
  simp only [List.length_nil, Nat.zero_add]
  have h0 : (step - 1) / step = 0 := by
    rcases Nat.eq_zero_or_pos step with h | h
    · simp [h]
    · exact Nat.div_eq_of_lt (by omega)
  rw [h0]
  simp

theorem pyChunks_count_pos (step : Nat) (hstep : 0 < step) (l : List α) (hl : 1 ≤ l.length) :
    (l.length + step - 1) / step = (l.length - 1) / step + 1 := by
  rw [show l.length + step - 1 = (l.length - 1) + step by omega, Nat.add_div_right _ hstep]

theorem pyChunks_cons (step : Nat) (hstep : 0 < step) (l : List α) (hl : l ≠ []) :
    pyChunks step l = l.take step :: pyChunks step (l.drop step) := by
  have hlen : 0 < l.length := List.length_pos.mpr hl
  have hcount : (l.length + step - 1) / step = ((l.length - step) + step - 1) / step + 1 := by
    rcases Nat.lt_or_ge l.length step with h | h
    · rw [pyChunks_count_pos step hstep l hlen, Nat.div_eq_of_lt (by omega),
        show l.length - step = 0 by omega]
      simp [Nat.div_eq_of_lt (show step - 1 < step by omega)]
    · rcases Nat.eq_or_lt_of_le h with h' | h'
      · rw [pyChunks_count_pos step hstep l hlen, ← h']
        simp [Nat.div_eq_of_lt (show l.length - 1 < l.length by omega),
          Nat.div_eq_of_lt (show l.length - l.length + l.length - 1 < l.length by omega)]
      · rw [pyChunks_count_pos step hstep l hlen,
          show (l.length - step) + step - 1 = (l.length - step) - 1 + step by omega,
          Nat.add_div_right _ hstep,
          show l.length - 1 = (l.length - step - 1) + step by omega,
          Nat.add_div_right _ hstep]
  unfold pyChunks
  rw [List.length_drop, hcount, List.range_succ_eq_map]
  simp only [List.map_cons, Nat.zero_mul, List.drop_zero, List.map_map]
  congr 1
  apply List.map_congr_left
  intro i _
  simp only [Function.comp_apply, List.drop_drop]
  congr 2
  rw [Nat.succ_mul]
  ring

theorem pyChunks_flatten (step : Nat) (hstep : 0 < step) (l : List α) :
    (pyChunks step l).flatten = l := by
  generalize hn : l.length = n
  induction n using Nat.strong_induction_on generalizing l with
  | _ n ih =>
    rcases l with _ | ⟨x, xs⟩
    · simp [pyChunks_nil]
    · rw [pyChunks_cons step hstep _ (by simp)]
      have hd : ((x :: xs).drop step).length < n := by
        rw [List.length_drop]
        simp only [List.length_cons] at hn ⊢
        omega
      rw [List.flatten_cons, ih _ hd _ rfl, List.take_append_drop]

theorem pyChunks_mem_subset (step : Nat) (l : List α) (c : List α)
    (hc : c ∈ pyChunks step l) (x : α) (hx : x ∈ c) : x ∈ l := by
  simp only [pyChunks, List.mem_map] at hc
  obtain ⟨i, _, rfl⟩ := hc
  exact List.mem_of_mem_drop (List.mem_of_mem_take hx)

theorem pyChunks_mem_ne_nil (step : Nat) (hstep : 0 < step) (l : List α) (c : List α)
    (hc : c ∈ pyChunks step l) : c ≠ [] := by
  simp only [pyChunks, List.mem_map, List.mem_range] at hc
  obtain ⟨i, hi, rfl⟩ := hc
  have h1 : (i + 1) * step ≤ l.length + step - 1 :=
    (Nat.le_div_iff_mul_le hstep).mp hi
  rw [Nat.add_mul, Nat.one_mul] at h1
  have h2 : i * step < l.length := by omega
  intro hnil
  have h3 : ((l.drop (i * step)).take step).length = 0 := by rw [hnil]; rfl
  rw [List.length_take, List.length_drop] at h3
  omega

theorem pyChunks_cons_of_take (step : Nat) (hstep : 0 < step) (g rest : List α)
    (hg : g.length = step) : pyChunks step (g ++ rest) = g :: pyChunks step rest := by
  have hne : g ++ rest ≠ [] := by
    cases g with
    | nil => simp at hg; omega
    | cons a as => simp
  rw [pyChunks_cons step hstep _ hne, List.take_left' hg, List.drop_left' hg]

/-! ## base85 and base64 (CPython `base64` module)

`BytesSpyce` uses `base64.b85encode`/`base64.b85decode`; the emitted api
snippet uses `base64.b64decode`. The definitions below embed the CPython
implementations: 4-byte big-endian words to 5 base-85 digits, with the
final partial group zero-padded on encode and `~`-padded on decode, and
the output truncated by the padding amount. Decoding fails (`none`) on a
character outside the alphabet or on a group value at or above 2^32,
exactly where CPython raises. -/

/-- The base85 alphabet of CPython `base64._b85alphabet` (85 characters).
The backtick and brace characters are written via their code points. -/
def b85chars : List Char :=
  s2l "0123456789ABCDEFGHIJKLMNOPQRSTUVWXYZabcdefghijklmnopqrstuvwxyz" ++
  ['!', '#', '$', '%', '&', '(', ')', '*', '+', '-', ';', '<', '=', '>', '?', '@', '^', '_',
   Char.ofNat 96, Char.ofNat 123, '|', Char.ofNat 125, '~']

/-- The standard base64 alphabet. -/
def b64chars : List Char :=
  s2l "ABCDEFGHIJKLMNOPQRSTUVWXYZabcdefghijklmnopqrstuvwxyz0123456789+/"

/-- Index of a character in an alphabet (the decode table lookup; `none`
models a `KeyError`/`binascii.Error` on a character outside the alphabet). -/
def idxOf? (c : Char) : List Char → Option Nat
  | [] => none
  | x :: xs => if x = c then some 0 else (idxOf? c xs).map (· + 1)

/-- A big-endian 32-bit word from a 4-byte group (`struct.unpack('!I')`). -/
def w4 (g : List Nat) : Nat := g.foldl (fun a x => a * 256 + x) 0

/-- The five base-85 digits of a word, most significant first. -/
def digits5 (w : Nat) : List Nat :=
  [w / 52200625 % 85, w / 614125 % 85, w / 7225 % 85, w / 85 % 85, w % 85]

/-- The five base85 characters of a 32-bit word. -/
def enc5 (w : Nat) : List Char := (digits5 w).map (fun d => b85chars.getD d ' ')

/-- CPython `base64.b85encode` (no `pad=` argument): zero-pad to a multiple
of four bytes, emit five characters per word, drop the last `padding`
characters. -/
def b85encode (b : List Nat) : List Char :=
  let padding := (4 - b.length % 4) % 4
  let padded := b ++ List.replicate padding 0
  let out := ((pyChunks 4 padded).map (fun g => enc5 (w4 g))).flatten
  out.take (out.length - padding)

/-- The four big-endian bytes of a 32-bit word (`struct.pack('!I')`). -/
def bytes4 (w : Nat) : List Nat :=
  [w / 16777216 % 256, w / 65536 % 256, w / 256 % 256, w % 256]

/-- Decode one 5-character base85 group; fails on a character outside the
alphabet or on a group value at or above 2^32 (CPython raises there). -/
def dec5 (g : List Char) : Option (List Nat) :=
  match g.mapM (fun c => idxOf? c b85chars) with
  | none => none
  | some ds =>
    let acc := ds.foldl (fun a d => a * 85 + d) 0
    if acc < 4294967296 then some (bytes4 acc) else none

/-- CPython `base64.b85decode`: pad with `~` to a multiple of five
characters, decode each group, drop the last `padding` bytes. -/
def b85decode (cs : List Char) : Option (List Nat) :=
  let padding := (5 - cs.length % 5) % 5
  let padded := cs ++ List.replicate padding '~'
  match (pyChunks 5 padded).mapM dec5 with
  | none => none
  | some bss => some (bss.flatten.take (bss.flatten.length - padding))

/-- CPython `base64.b64decode` (default `validate=False`): characters
outside the alphabet are discarded; data stops at the first `=`; without
padding characters the number of data characters must be a multiple of
four. The partial-quantum cases with explicit padding are included for
completeness; the claims only exercise padless input. -/
def b64decode (cs : List Char) : Option (List Nat) :=
  let hasPad := cs.contains '='
  let pre := cs.takeWhile (fun c => c != '=')
  let ds := pre.filterMap (fun c => idxOf? c b64chars)
  let r := ds.length % 4
  let main := ((pyChunks 4 (ds.take (ds.length - r))).map (fun g =>
    let acc := g.foldl (fun a d => a * 64 + d) 0
    [acc / 65536 % 256, acc / 256 % 256, acc % 256])).flatten
  let tail := ds.drop (ds.length - r)
  let tacc := tail.foldl (fun a d => a * 64 + d) 0
  if r == 0 then some main
  else if hasPad then
    if r == 2 then some (main ++ [tacc / 16 % 256])
    else if r == 3 then some (main ++ [tacc / 1024 % 256, tacc / 4 % 256])
    else none
  else none

example : b85encode [] = [] := by decide
example : b85encode [0, 0, 0, 0] = s2l "00000" := by decide
example : b85encode [0, 0, 0] = s2l "0000" := by decide
example : b85decode (b85encode [104, 101, 108, 108, 111]) = some [104, 101, 108, 108, 111] := by
  decide
example : b64decode (s2l "0000") = some [211, 77, 52] := by decide

theorem idxOf_b85_getD : ∀ d < 85, idxOf? (b85chars.getD d ' ') b85chars = some d := by decide

theorem idxOf_tilde : idxOf? '~' b85chars = some 84 := by decide

theorem b85chars_not_ws : ∀ c ∈ b85chars, isWsC c = false := by decide

theorem enc5_length (w : Nat) : (enc5 w).length = 5 := rfl

theorem enc5_mem (w : Nat) (c : Char) (hc : c ∈ enc5 w) : c ∈ b85chars := by
  simp only [enc5, digits5, List.map_cons, List.map_nil, List.mem_cons, List.mem_singleton,
    List.not_mem_nil, or_false] at hc
  have hm : ∀ d, d % 85 < 85 := fun d => Nat.mod_lt _ (by norm_num)
  rcases hc with rfl | rfl | rfl | rfl | rfl <;>
    · rw [List.getD_eq_getElem _ _ (by rw [show b85chars.length = 85 from rfl]; exact hm _)]
      exact List.getElem_mem _

theorem dec5_enc5 (w : Nat) (hw : w < 4294967296) : dec5 (enc5 w) = some (bytes4 w) := by
  have hm : ∀ k, w / k % 85 < 85 := fun k => Nat.mod_lt _ (by norm_num)
  have hm0 : w % 85 < 85 := Nat.mod_lt _ (by norm_num)
  unfold dec5 enc5 digits5
  simp only [List.map_cons, List.map_nil, List.mapM_cons, List.mapM_nil,
    idxOf_b85_getD _ (hm 52200625), idxOf_b85_getD _ (hm 614125), idxOf_b85_getD _ (hm 7225),
    idxOf_b85_getD _ (hm 85), idxOf_b85_getD _ hm0, Option.bind_eq_bind, Option.some_bind,
    Option.pure_def, List.foldl_cons, List.foldl_nil]
  have hacc : ((((0 * 85 + w / 52200625 % 85) * 85 + w / 614125 % 85) * 85 + w / 7225 % 85) * 85
      + w / 85 % 85) * 85 + w % 85 = w := by omega
  rw [hacc, if_pos hw]

theorem dec5_length (g : List Char) (bs : List Nat) (h : dec5 g = some bs) : bs.length = 4 := by
  unfold dec5 at h
  rcases hm : g.mapM (fun c => idxOf? c b85chars) with _ | ds
  · rw [hm] at h; exact absurd h (by simp)
  · rw [hm] at h
    simp only at h
    split at h
    · cases h; rfl
    · exact absurd h (by simp)

theorem bytes4_w4 (a b c d : Nat) (ha : a < 256) (hb : b < 256) (hc : c < 256) (hd : d < 256) :
    bytes4 (w4 [a, b, c, d]) = [a, b, c, d] := by
  have hw : w4 [a, b, c, d] = ((a * 256 + b) * 256 + c) * 256 + d := by
    simp [w4, List.foldl]
  rw [bytes4, hw]
  refine List.cons_eq_cons.mpr ⟨by omega, List.cons_eq_cons.mpr ⟨by omega,
    List.cons_eq_cons.mpr ⟨by omega, by rw [List.cons_eq_cons]; exact ⟨by omega, rfl⟩⟩⟩⟩

theorem w4_lt (a b c d : Nat) (ha : a < 256) (hb : b < 256) (hc : c < 256) (hd : d < 256) :
    w4 [a, b, c, d] < 4294967296 := by
  have hw : w4 [a, b, c, d] = ((a * 256 + b) * 256 + c) * 256 + d := by
    simp [w4, List.foldl]
  omega

theorem b85encode_cons4 (g rest : List Nat) (hg : g.length = 4) :
    b85encode (g ++ rest) = enc5 (w4 g) ++ b85encode rest := by
  unfold b85encode
  simp only [List.length_append, hg]
  rw [Nat.add_mod_left]
  set p := (4 - rest.length % 4) % 4 with hp
  rw [List.append_assoc, pyChunks_cons_of_take 4 (by norm_num) g _ hg]
  simp only [List.map_cons, List.flatten_cons]
  set out := ((pyChunks 4 (rest ++ List.replicate p 0)).map fun g => enc5 (w4 g)).flatten with hout
  have hple : p ≤ out.length := by
    rcases rest with _ | ⟨x, xs⟩
    · simp [hp]
    · have hne : (x :: xs) ++ List.replicate p 0 ≠ [] := by simp
      rw [hout, pyChunks_cons 4 (by norm_num) _ hne]
      simp only [List.map_cons, List.flatten_cons, List.length_append, enc5_length]
      have hplt : p < 4 := by rw [hp]; exact Nat.mod_lt _ (by norm_num)
      omega
  rw [List.length_append, enc5_length,
    show 5 + out.length - p = (enc5 (w4 g)).length + (out.length - p) by rw [enc5_length]; omega,
    List.take_append]

theorem pyChunks_singleton (step : Nat) (l : List α) (h1 : l ≠ []) (h2 : l.length ≤ step) :
    pyChunks step l = [l] := by
  have hstep : 0 < step := Nat.lt_of_lt_of_le (List.length_pos.mpr h1) h2
  rw [pyChunks_cons step hstep l h1, List.take_of_length_le h2, List.drop_eq_nil_of_le h2,
    pyChunks_nil]

theorem b85encode_short (bs : List Nat) (h1 : 1 ≤ bs.length) (h3 : bs.length ≤ 3) :
    b85encode bs
      = (enc5 (w4 (bs ++ List.replicate (4 - bs.length) 0))).take (bs.length + 1) := by
  unfold b85encode
  dsimp only
  have hplen : (4 - bs.length % 4) % 4 = 4 - bs.length := by omega
  rw [hplen]
  have hlen : (bs ++ List.replicate (4 - bs.length) 0).length = 4 := by
    rw [List.length_append, List.length_replicate]; omega
  rw [pyChunks_singleton 4 _ (by intro h; rw [h] at hlen; simp at hlen) (by omega)]
  simp only [List.map_cons, List.map_nil, List.flatten_cons, List.flatten_nil, List.append_nil,
    enc5_length]
  rw [show 5 - (4 - bs.length) = bs.length + 1 by omega]

theorem b85_rt1 (a : Nat) (ha : a < 256) : b85decode (b85encode [a]) = some [a] := by
  rw [b85encode_short [a] (by norm_num) (by norm_num)]
  have hW : w4 ([a] ++ List.replicate (4 - [a].length) 0) = a * 16777216 := by
    show w4 [a, 0, 0, 0] = a * 16777216
    simp [w4, List.foldl]
    ring
  rw [hW]
  set W := a * 16777216 with hWdef
  have hm : ∀ k, W / k % 85 < 85 := fun k => Nat.mod_lt _ (by norm_num)
  rw [show [a].length + 1 = 2 from rfl, show (enc5 W).take 2
    = [b85chars.getD (W / 52200625 % 85) ' ', b85chars.getD (W / 614125 % 85) ' '] from rfl]
  unfold b85decode
  dsimp only
  rw [show (5 - ([b85chars.getD (W / 52200625 % 85) ' ', b85chars.getD (W / 614125 % 85) ' ']
      : List Char).length % 5) % 5 = 3 from rfl]
  rw [show List.replicate 3 '~' = ['~', '~', '~'] from rfl]
  rw [show ([b85chars.getD (W / 52200625 % 85) ' ', b85chars.getD (W / 614125 % 85) ' ']
      ++ ['~', '~', '~'] : List Char)
    = [b85chars.getD (W / 52200625 % 85) ' ', b85chars.getD (W / 614125 % 85) ' ', '~', '~', '~']
    from rfl]
  rw [pyChunks_singleton 5 _ (by simp) (by simp)]
  rw [List.mapM_cons, List.mapM_nil]
  unfold dec5
  simp only [List.mapM_cons, List.mapM_nil, idxOf_b85_getD _ (hm 52200625),
    idxOf_b85_getD _ (hm 614125), idxOf_tilde, Option.bind_eq_bind, Option.some_bind,
    Option.pure_def, List.foldl_cons, List.foldl_nil]
  have hq : W / 52200625 = W / 614125 / 85 := by
    rw [Nat.div_div_eq_div_mul]
  have hqlt : W / 614125 < 7225 := by rw [hWdef]; omega
  have hd0 : W / 52200625 % 85 = W / 614125 / 85 := by
    rw [hq, Nat.mod_eq_of_lt (by omega)]
  rw [hd0]
  rw [show ((((0 * 85 + W / 614125 / 85) * 85 + W / 614125 % 85) * 85 + 84) * 85 + 84) * 85 + 84
      = 614125 * (W / 614125) + 614124 by omega]
  have hacclt : 614125 * (W / 614125) + 614124 < 4294967296 := by rw [hWdef]; omega
  rw [if_pos hacclt]
  simp only [Option.some_bind, Option.pure_def, Option.bind_eq_bind, List.flatten_cons,
    List.flatten_nil, List.append_nil]
  rw [show (bytes4 (614125 * (W / 614125) + 614124)).length = 4 from rfl,
    show (4 : Nat) - 3 = 1 from rfl,
    show (bytes4 (614125 * (W / 614125) + 614124)).take 1
      = [(614125 * (W / 614125) + 614124) / 16777216 % 256] from rfl]
  simp only [Option.some.injEq, List.cons.injEq, and_true]
  rw [hWdef]
  have h1 : (614125 * (a * 16777216 / 614125) + 614124) / 16777216 = a := by
    have lo : a * 16777216 ≤ 614125 * (a * 16777216 / 614125) + 614124 := by omega
    have hi : 614125 * (a * 16777216 / 614125) + 614124 < (a + 1) * 16777216 := by omega
    omega
  rw [h1, Nat.mod_eq_of_lt ha]

theorem b85_rt2 (a b : Nat) (ha : a < 256) (hb : b < 256) :
    b85decode (b85encode [a, b]) = some [a, b] := by
  rw [b85encode_short [a, b] (by norm_num) (by norm_num)]
  have hW : w4 ([a, b] ++ List.replicate (4 - [a, b].length) 0) = a * 16777216 + b * 65536 := by
    show w4 [a, b, 0, 0] = _
    simp [w4, List.foldl]
    ring
  rw [hW]
  set W := a * 16777216 + b * 65536 with hWdef
  have hm : ∀ k, W / k % 85 < 85 := fun k => Nat.mod_lt _ (by norm_num)
  rw [show [a, b].length + 1 = 3 from rfl, show (enc5 W).take 3
    = [b85chars.getD (W / 52200625 % 85) ' ', b85chars.getD (W / 614125 % 85) ' ',
       b85chars.getD (W / 7225 % 85) ' '] from rfl]
  unfold b85decode
  dsimp only
  rw [show (5 - ([b85chars.getD (W / 52200625 % 85) ' ', b85chars.getD (W / 614125 % 85) ' ',
      b85chars.getD (W / 7225 % 85) ' '] : List Char).length % 5) % 5 = 2 from rfl]
  rw [show List.replicate 2 '~' = ['~', '~'] from rfl]
  rw [show ([b85chars.getD (W / 52200625 % 85) ' ', b85chars.getD (W / 614125 % 85) ' ',
      b85chars.getD (W / 7225 % 85) ' '] ++ ['~', '~'] : List Char)
    = [b85chars.getD (W / 52200625 % 85) ' ', b85chars.getD (W / 614125 % 85) ' ',
       b85chars.getD (W / 7225 % 85) ' ', '~', '~'] from rfl]
  rw [pyChunks_singleton 5 _ (by simp) (by simp)]
  rw [List.mapM_cons, List.mapM_nil]
  unfold dec5
  simp only [List.mapM_cons, List.mapM_nil, idxOf_b85_getD _ (hm 52200625),
    idxOf_b85_getD _ (hm 614125), idxOf_b85_getD _ (hm 7225), idxOf_tilde, Option.bind_eq_bind,
    Option.some_bind, Option.pure_def, List.foldl_cons, List.foldl_nil]
  have hWlt : W < 4294967296 := by rw [hWdef]; omega
  rw [show ((((0 * 85 + W / 52200625 % 85) * 85 + W / 614125 % 85) * 85 + W / 7225 % 85) * 85
      + 84) * 85 + 84 = 7225 * (W / 7225) + 7224 by
    rw [show W / 52200625 = W / 85 / 85 / 85 / 85 by omega,
      show W / 614125 = W / 85 / 85 / 85 by omega, show W / 7225 = W / 85 / 85 by omega]
    omega]
  have hacclt : 7225 * (W / 7225) + 7224 < 4294967296 := by omega
  rw [if_pos hacclt]
  simp only [Option.some_bind, Option.pure_def, Option.bind_eq_bind, List.flatten_cons,
    List.flatten_nil, List.append_nil]
  rw [show (bytes4 (7225 * (W / 7225) + 7224)).length = 4 from rfl,
    show (4 : Nat) - 2 = 2 from rfl,
    show (bytes4 (7225 * (W / 7225) + 7224)).take 2
      = [(7225 * (W / 7225) + 7224) / 16777216 % 256, (7225 * (W / 7225) + 7224) / 65536 % 256]
      from rfl]
  simp only [Option.some.injEq, List.cons.injEq, and_true]
  rw [hWdef]
  constructor
  · have h1 : (7225 * ((a * 16777216 + b * 65536) / 7225) + 7224) / 16777216 = a := by
      have lo : a * 16777216 ≤ 7225 * ((a * 16777216 + b * 65536) / 7225) + 7224 := by omega
      have hi : 7225 * ((a * 16777216 + b * 65536) / 7225) + 7224 < (a + 1) * 16777216 := by
        omega
      omega
    rw [h1, Nat.mod_eq_of_lt ha]
  · have h1 : (7225 * ((a * 16777216 + b * 65536) / 7225) + 7224) / 65536 = a * 256 + b := by
      have lo : (a * 256 + b) * 65536 ≤ 7225 * ((a * 16777216 + b * 65536) / 7225) + 7224 := by
        omega
      have hi : 7225 * ((a * 16777216 + b * 65536) / 7225) + 7224
          < (a * 256 + b + 1) * 65536 := by omega
      omega
    rw [h1]
    omega

theorem b85_rt3 (a b c : Nat) (ha : a < 256) (hb : b < 256) (hc : c < 256) :
    b85decode (b85encode [a, b, c]) = some [a, b, c] := by
  rw [b85encode_short [a, b, c] (by norm_num) (by norm_num)]
  have hW : w4 ([a, b, c] ++ List.replicate (4 - [a, b, c].length) 0)
      = a * 16777216 + b * 65536 + c * 256 := by
    show w4 [a, b, c, 0] = _
    simp [w4, List.foldl]
    ring
  rw [hW]
  set W := a * 16777216 + b * 65536 + c * 256 with hWdef
  have hm : ∀ k, W / k % 85 < 85 := fun k => Nat.mod_lt _ (by norm_num)
  rw [show [a, b, c].length + 1 = 4 from rfl, show (enc5 W).take 4
    = [b85chars.getD (W / 52200625 % 85) ' ', b85chars.getD (W / 614125 % 85) ' ',
       b85chars.getD (W / 7225 % 85) ' ', b85chars.getD (W / 85 % 85) ' '] from rfl]
  unfold b85decode
  dsimp only
  rw [show (5 - ([b85chars.getD (W / 52200625 % 85) ' ', b85chars.getD (W / 614125 % 85) ' ',
      b85chars.getD (W / 7225 % 85) ' ', b85chars.getD (W / 85 % 85) ' ']
      : List Char).length % 5) % 5 = 1 from rfl]
  rw [show List.replicate 1 '~' = ['~'] from rfl]
  rw [show ([b85chars.getD (W / 52200625 % 85) ' ', b85chars.getD (W / 614125 % 85) ' ',
      b85chars.getD (W / 7225 % 85) ' ', b85chars.getD (W / 85 % 85) ' '] ++ ['~'] : List Char)
    = [b85chars.getD (W / 52200625 % 85) ' ', b85chars.getD (W / 614125 % 85) ' ',
       b85chars.getD (W / 7225 % 85) ' ', b85chars.getD (W / 85 % 85) ' ', '~'] from rfl]
  rw [pyChunks_singleton 5 _ (by simp) (by simp)]
  rw [List.mapM_cons, List.mapM_nil]
  unfold dec5
  simp only [List.mapM_cons, List.mapM_nil, idxOf_b85_getD _ (hm 52200625),
    idxOf_b85_getD _ (hm 614125), idxOf_b85_getD _ (hm 7225), idxOf_b85_getD _ (hm 85),
    idxOf_tilde, Option.bind_eq_bind, Option.some_bind, Option.pure_def, List.foldl_cons,
    List.foldl_nil]
  have hWlt : W < 4294967296 := by rw [hWdef]; omega
  rw [show ((((0 * 85 + W / 52200625 % 85) * 85 + W / 614125 % 85) * 85 + W / 7225 % 85) * 85
      + W / 85 % 85) * 85 + 84 = 85 * (W / 85) + 84 by
    rw [show W / 52200625 = W / 85 / 85 / 85 / 85 by omega,
      show W / 614125 = W / 85 / 85 / 85 by omega, show W / 7225 = W / 85 / 85 by omega]
    omega]
  have hacclt : 85 * (W / 85) + 84 < 4294967296 := by omega
  rw [if_pos hacclt]
  simp only [Option.some_bind, Option.pure_def, Option.bind_eq_bind, List.flatten_cons,
    List.flatten_nil, List.append_nil]
  rw [show (bytes4 (85 * (W / 85) + 84)).length = 4 from rfl,
    show (4 : Nat) - 1 = 3 from rfl,
    show (bytes4 (85 * (W / 85) + 84)).take 3
      = [(85 * (W / 85) + 84) / 16777216 % 256, (85 * (W / 85) + 84) / 65536 % 256,
         (85 * (W / 85) + 84) / 256 % 256] from rfl]
  simp only [Option.some.injEq, List.cons.injEq, and_true]
  rw [hWdef]
  refine ⟨?_, ?_, ?_⟩
  · have h1 : (85 * ((a * 16777216 + b * 65536 + c * 256) / 85) + 84) / 16777216 = a := by
      have lo : a * 16777216 ≤ 85 * ((a * 16777216 + b * 65536 + c * 256) / 85) + 84 := by omega
      have hi : 85 * ((a * 16777216 + b * 65536 + c * 256) / 85) + 84
          < (a + 1) * 16777216 := by omega
      omega
    rw [h1, Nat.mod_eq_of_lt ha]
  · have h1 : (85 * ((a * 16777216 + b * 65536 + c * 256) / 85) + 84) / 65536 = a * 256 + b := by
      have lo : (a * 256 + b) * 65536
          ≤ 85 * ((a * 16777216 + b * 65536 + c * 256) / 85) + 84 := by omega
      have hi : 85 * ((a * 16777216 + b * 65536 + c * 256) / 85) + 84
          < (a * 256 + b + 1) * 65536 := by omega
      omega
    rw [h1]
    omega
  · have h1 : (85 * ((a * 16777216 + b * 65536 + c * 256) / 85) + 84) / 256
        = a * 65536 + b * 256 + c := by
      have lo : (a * 65536 + b * 256 + c) * 256
          ≤ 85 * ((a * 16777216 + b * 65536 + c * 256) / 85) + 84 := by omega
      have hi : 85 * ((a * 16777216 + b * 65536 + c * 256) / 85) + 84
          < (a * 65536 + b * 256 + c + 1) * 256 := by omega
      omega
    rw [h1]
    omega

theorem b85decode_cons5 (w : Nat) (hw : w < 4294967296) (E : List Char) :
    b85decode (enc5 w ++ E) = (b85decode E).map (fun bs => bytes4 w ++ bs) := by
  unfold b85decode
  simp only [List.length_append, enc5_length]
  rw [Nat.add_mod_left]
  set p := (5 - E.length % 5) % 5 with hp
  rw [List.append_assoc, pyChunks_cons_of_take 5 (by norm_num) _ _ (enc5_length w)]
  rw [List.mapM_cons, dec5_enc5 w hw]
  cases hres : (pyChunks 5 (E ++ List.replicate p '~')).mapM dec5 with
  | none => simp
  | some bss =>
    have hple : p ≤ bss.flatten.length := by
      rcases E with _ | ⟨x, xs⟩
      · have hbss : bss = [] := by
          rw [show p = 0 by rw [hp]; rfl] at hres
          simp only [List.replicate, List.nil_append, pyChunks_nil, List.mapM_nil] at hres
          cases hres
          rfl
        rw [show p = 0 by rw [hp]; rfl]
        omega
      · have hne : (x :: xs) ++ List.replicate p '~' ≠ [] := by simp
        rw [pyChunks_cons 5 (by norm_num) _ hne, List.mapM_cons] at hres
        rcases h1 : dec5 (((x :: xs) ++ List.replicate p '~').take 5) with _ | b1
        · rw [h1] at hres; exact absurd hres (by simp)
        · rw [h1] at hres
          rcases h2 : (pyChunks 5 (((x :: xs) ++ List.replicate p '~').drop 5)).mapM dec5
            with _ | bs2
          · rw [h2] at hres; exact absurd hres (by simp)
          · rw [h2] at hres
            simp only [Option.bind_eq_bind, Option.some_bind, Option.pure_def,
              Option.some.injEq] at hres
            subst hres
            have hplt : p < 5 := by rw [hp]; exact Nat.mod_lt _ (by norm_num)
            have hb1 : b1.length = 4 := dec5_length _ _ h1
            simp only [List.flatten_cons, List.length_append, hb1]
            omega
    simp only [Option.bind_eq_bind, Option.some_bind, Option.pure_def, Option.map_some,
      List.flatten_cons, List.length_append, Option.some.injEq,
      show (bytes4 w).length = 4 from rfl]
    rw [show 4 + bss.flatten.length - p = (bytes4 w).length + (bss.flatten.length - p) by
      rw [show (bytes4 w).length = 4 from rfl]; omega, List.take_append]
    rfl

theorem b85_roundtrip (b : List Nat) (hb : ∀ x ∈ b, x < 256) :
    b85decode (b85encode b) = some b := by
  generalize hn : b.length = n
  induction n using Nat.strong_induction_on generalizing b with
  | _ n ih =>
    rcases b with _ | ⟨a0, _ | ⟨a1, _ | ⟨a2, _ | ⟨a3, rest⟩⟩⟩⟩
    · subst hn; decide
    · exact b85_rt1 a0 (hb a0 (by simp))
    · exact b85_rt2 a0 a1 (hb a0 (by simp)) (hb a1 (by simp))
    · exact b85_rt3 a0 a1 a2 (hb a0 (by simp)) (hb a1 (by simp)) (hb a2 (by simp))
    · have h0 := hb a0 (by simp)
      have h1 := hb a1 (by simp)
      have h2 := hb a2 (by simp)
      have h3 := hb a3 (by simp)
      have hw := w4_lt a0 a1 a2 a3 h0 h1 h2 h3
      have hrest : rest.length < n := by
        rw [← hn]
        simp only [List.length_cons]
        omega
      rw [show a0 :: a1 :: a2 :: a3 :: rest = [a0, a1, a2, a3] ++ rest from rfl,
        b85encode_cons4 [a0, a1, a2, a3] rest rfl, b85decode_cons5 _ hw _,
        ih rest.length hrest rest (fun x hx => hb x (by simp [hx])) rfl]
      simp [bytes4_w4 a0 a1 a2 a3 h0 h1 h2 h3]

theorem b85encode_mem (b : List Nat) (c : Char) (hc : c ∈ b85encode b) : c ∈ b85chars := by
  unfold b85encode at hc
  dsimp only at hc
  have h1 := List.mem_of_mem_take hc
  rw [List.mem_flatten] at h1
  obtain ⟨l, hl, hcl⟩ := h1
  rw [List.mem_map] at hl
  obtain ⟨g, _, rfl⟩ := hl
  exact enc5_mem _ _ hcl

/-! ## The codecs of `spyce.py`

`TextSpyce.encode` is `[line + '\n' for line in content.split('\n')]`,
`TextSpyce.decode` is `''.join(lines)`. `BytesSpyce.encode` base85-encodes
the bytes and wraps them into `#|`-prefixed newline-terminated lines of at
most `MAX_LINE_LENGTH` data characters; `BytesSpyce.decode` strips the
sentinel from every line carrying it, ignores the others, joins and
base85-decodes. The module-global `MAX_LINE_LENGTH` is threaded as an
explicit argument. -/

/-- Python `content.split('\n')`. -/
def splitNl : List Char → List (List Char)
  | [] => [[]]
  | c :: cs =>
    if c = '\n' then [] :: splitNl cs
    else
      match splitNl cs with
      | [] => [[c]]
      | h :: t => (c :: h) :: t

def TextSpyce.encode (content : List Char) : List (List Char) :=
  (splitNl content).map (fun line => line ++ ['\n'])

def TextSpyce.decode (lines : List (List Char)) : List Char := lines.flatten

/-- The `BytesSpyce.__data_prefix__` sentinel. -/
def dataPfx : List Char := s2l "#|"

/-- `BytesSpyce.encode` with the module-global `MAX_LINE_LENGTH` passed
explicitly. The chunk width is `max(maxLineLength - len('#|'), len('#|') + 1)`;
Nat subtraction truncates at zero where Python would give a negative value,
but the enclosing `max` with 3 gives the same result. -/
def BytesSpyce.encodeWith (maxLineLength : Nat) (content : List Nat) : List (List Char) :=
  let data := b85encode content
  let dlen := max (maxLineLength - dataPfx.length) (dataPfx.length + 1)
  (pyChunks dlen data).map (fun chunk => dataPfx ++ chunk ++ ['\n'])

/-- `BytesSpyce.encode` at the default `MAX_LINE_LENGTH = 120`. -/
def BytesSpyce.encode (content : List Nat) : List (List Char) :=
  BytesSpyce.encodeWith 120 content

def BytesSpyce.decode (lines : List (List Char)) : Option (List Nat) :=
  b85decode (((lines.filter (fun l => dataPfx.isPrefixOf l)).map
    (fun l => pyStrip (l.drop dataPfx.length))).flatten)

/-- `api.BytesSpyceObj._build_content`: same sentinel stripping as the
core decoder, but a base64 decode (the core encoder emits base85). -/
def apiBytesBuildContent (spyceLines : List (List Char)) : Option (List Nat) :=
  b64decode (((spyceLines.filter (fun l => dataPfx.isPrefixOf l)).map
    (fun l => pyStrip (l.drop dataPfx.length))).flatten)

/-- `Interleave xs ys zs`: `zs` merges `xs` and `ys`, keeping the relative
order within each. -/
inductive Interleave : List α → List α → List α → Prop
  | nil : Interleave [] [] []
  | left {x : α} {xs ys zs : List α} : Interleave xs ys zs → Interleave (x :: xs) ys (x :: zs)
  | right {y : α} {xs ys zs : List α} : Interleave xs ys zs → Interleave xs (y :: ys) (y :: zs)

/-! ## Marker lines (`__re_section__`, `__re_spyce__`, `__re_conf__`)

The three `re.match` patterns of `SpycyFile` are embedded as direct
character-level matchers. All quantifiers in the patterns are greedy runs
over disjoint character classes, so the match is deterministic; `re.match`
only anchors at the start, so trailing text after a successful match is
ignored, as in the source. Lines are newline-terminated pieces as produced
by `readlines`, so `$` in `__re_conf__` amounts to stripping one trailing
newline. -/

inductive SSec
  | source
  | data
deriving DecidableEq

def SSec.toChars : SSec → List Char
  | .source => s2l "source"
  | .data => s2l "data"

/-- Python `\w` (ASCII range; no non-ASCII keys occur in this code base). -/
def isWordC (c : Char) : Bool := c.isAlphanum || c == '_'

/-- The name character class `[^\s\/\:]`. -/
def nameOkC (c : Char) : Bool := !(isWsC c) && c != '/' && c != ':'

def dropLit (lit l : List Char) : Option (List Char) :=
  if lit.isPrefixOf l then some (l.drop lit.length) else none

/-- Consume `\s+` (greedy). -/
def dropWs1 (l : List Char) : Option (List Char) :=
  match l with
  | [] => none
  | c :: rest => if isWsC c then some (rest.dropWhile isWsC) else none

/-- Consume `(source|data)`. -/
def dropSec (l : List Char) : Option (SSec × List Char) :=
  match dropLit (s2l "source") l with
  | some r => some (.source, r)
  | none =>
    match dropLit (s2l "data") l with
    | some r => some (.data, r)
    | none => none

structure MSpyce where
  isStart : Bool
  sec : SSec
  name : List Char
  ty : Option (List Char)
deriving DecidableEq

/-- `re.match` of `__re_spyce__`:
`\# spyce:\s+(start|end)\s+(source|data)/([^\s\/\:]+)(?:\:(\S+))?`. -/
def matchSpyce (l : List Char) : Option MSpyce :=
  match dropLit (s2l "# spyce:") l with
  | none => none
  | some r1 =>
    match dropWs1 r1 with
    | none => none
    | some r2 =>
      let actRes : Option (Bool × List Char) :=
        match dropLit (s2l "start") r2 with
        | some r => some (true, r)
        | none =>
          match dropLit (s2l "end") r2 with
          | some r => some (false, r)
          | none => none
      match actRes with
      | none => none
      | some (isStart, r3) =>
        match dropWs1 r3 with
        | none => none
        | some r4 =>
          match dropSec r4 with
          | none => none
          | some (sec, r5) =>
            match dropLit (s2l "/") r5 with
            | none => none
            | some r6 =>
              let nm := r6.takeWhile nameOkC
              let r7 := r6.dropWhile nameOkC
              if nm.isEmpty then none
              else
                let ty : Option (List Char) :=
                  match r7 with
                  | ':' :: r8 =>
                    let t := r8.takeWhile (fun c => !(isWsC c))
                    if t.isEmpty then none else some t
                  | _ => none
                some ⟨isStart, sec, nm, ty⟩

/-- `re.match` of `__re_section__`: `\# spyce:\s+section\s+(source|data)\s*`. -/
def matchSection (l : List Char) : Option SSec :=
  match dropLit (s2l "# spyce:") l with
  | none => none
  | some r1 =>
    match dropWs1 r1 with
    | none => none
    | some r2 =>
      match dropLit (s2l "section") r2 with
      | none => none
      | some r3 =>
        match dropWs1 r3 with
        | none => none
        | some r4 =>
          match dropSec r4 with
          | none => none
          | some (sec, _) => some sec

/-- `re.match` of `__re_conf__`:
`\# spyce:\s+conf:\s+(\w+)\s*=\s*(.*)\s*$`. The value keeps everything up
to the trailing newline. `json.loads` of the value is modelled as always
succeeding; no verified claim depends on conf-value validity. -/
def matchConf (l : List Char) : Option (List Char × List Char) :=
  match dropLit (s2l "# spyce:") l with
  | none => none
  | some r1 =>
    match dropWs1 r1 with
    | none => none
    | some r2 =>
      match dropLit (s2l "conf:") r2 with
      | none => none
      | some r3 =>
        match dropWs1 r3 with
        | none => none
        | some r4 =>
          let key := r4.takeWhile isWordC
          if key.isEmpty then none
          else
            match (r4.dropWhile isWordC).dropWhile isWsC with
            | '=' :: r6 =>
              let r7 := r6.dropWhile isWsC
              let v := if r7.getLast? = some '\n' then r7.dropLast else r7
              if v.contains '\n' then none else some (key, v)
            | _ => none

/-! ## Jars and the parser (`SpyceJar`, `SpycyFile._parse_lines`) -/

inductive SpyceTy
  | text
  | bytes
deriving DecidableEq

def SpyceTy.toChars : SpyceTy → List Char
  | .text => s2l "text"
  | .bytes => s2l "bytes"

/-- `default_spyce_type(section, name)`. -/
def defaultSpyceTy (sec : SSec) : SpyceTy :=
  match sec with
  | .source => .text
  | .data => .bytes

/-- Resolve an optional `:type` suffix against the registry `{text, bytes}`;
an unknown tag raises `SpyceError` in `SpyceJar.__init__`. -/
def resolveTy (sec : SSec) (ty : Option (List Char)) : Option SpyceTy :=
  match ty with
  | none => some (defaultSpyceTy sec)
  | some t =>
    if t = s2l "text" then some .text
    else if t = s2l "bytes" then some .bytes
    else none

/-- A stored `SpyceJar`: `stop` is `end` in the source (`end` is reserved
in Lean); the jar `conf` dictionary is not tracked, only `num_params`. -/
structure Jar where
  sec : SSec
  name : List Char
  ty : SpyceTy
  start : Int
  stop : Int
  numParams : Nat
deriving DecidableEq

/-- A `SpyceJar` that is still open during the parse (`end = None`). -/
structure OJar where
  sec : SSec
  name : List Char
  ty : SpyceTy
  start : Int
  numParams : Nat
deriving DecidableEq

/-- Ordered association list (Python `dict` preserves insertion order). -/
def alookup {β : Type} (k : List Char) : List (List Char × β) → Option β
  | [] => none
  | p :: rest => if p.1 = k then some p.2 else alookup k rest

def aset {β : Type} (k : List Char) (v : β) : List (List Char × β) → List (List Char × β)
  | [] => [(k, v)]
  | p :: rest => if p.1 = k then (k, v) :: rest else p :: aset k v rest

def aremove {β : Type} (k : List Char) : List (List Char × β) → List (List Char × β)
  | [] => []
  | p :: rest => if p.1 = k then rest else p :: aremove k rest

instance {ε α : Type} [DecidableEq ε] [DecidableEq α] : DecidableEq (Except ε α) := fun a b =>
  match a, b with
  | .error e, .error f => decidable_of_iff (e = f) (by simp)
  | .ok x, .ok y => decidable_of_iff (x = y) (by simp)
  | .error _, .ok _ => .isFalse (by simp)
  | .ok _, .error _ => .isFalse (by simp)

structure PSt where
  jars : List (List Char × Jar)
  cur : Option OJar
  secSource : Option Int
  secData : Option Int
deriving DecidableEq

/-- Parse errors. `unexpectedConf` is raised as a `NameError` in the
source (the message references an undefined `err`), the others as
`SpyceError`. -/
inductive PErr
  | unexpectedDirective (idx : Nat)
  | duplicated (idx : Nat)
  | unknownType (idx : Nat)
  | unexpectedConf (idx : Nat)
  | confPosition (idx : Nat)
deriving DecidableEq

def storeCur (st : PSt) (oj : OJar) (stop : Int) : PSt :=
  { st with jars := aset oj.name ⟨oj.sec, oj.name, oj.ty, oj.start, stop, oj.numParams⟩ st.jars,
            cur := none }

/-- `_store_spyce_jar(None)`: auto-close at `start + num_params + 1`. -/
def storeCurAuto (st : PSt) (oj : OJar) : PSt :=
  storeCur st oj (oj.start + oj.numParams + 1)

def setSecIdx (st : PSt) (s : SSec) (i : Int) : PSt :=
  match s with
  | .source => { st with secSource := some i }
  | .data => { st with secData := some i }

/-- One iteration of the `_parse_lines` loop at line `idx`. -/
def parseStep (idx : Nat) (line : List Char) (st : PSt) : Except PErr PSt :=
  match matchSection line with
  | some s => .ok (setSecIdx st s idx)
  | none =>
    match matchSpyce line with
    | some m =>
      if m.isStart then
        let st1 :=
          match st.cur with
          | some oj => storeCurAuto st oj
          | none => st
        match resolveTy m.sec m.ty with
        | none => .error (.unknownType idx)
        | some ty =>
          match alookup m.name st1.jars with
          | some _ => .error (.duplicated idx)
          | none => .ok { st1 with cur := some ⟨m.sec, m.name, ty, idx, 0⟩ }
      else
        match st.cur with
        | some oj =>
          if m.sec = oj.sec ∧ m.name = oj.name then .ok (storeCur st oj ((idx : Int) + 1))
          else .error (.unexpectedDirective idx)
        | none => .error (.unexpectedDirective idx)
    | none =>
      match matchConf line with
      | some _kv =>
        match st.cur with
        | none => .error (.unexpectedConf idx)
        | some oj =>
          if (idx : Int) = oj.start + oj.numParams + 1 then
            .ok { st with cur := some { oj with numParams := oj.numParams + 1 } }
          else .error (.confPosition idx)
      | none => .ok st

def parseLoop (idx : Nat) (lines : List (List Char)) (st : PSt) : Except PErr PSt :=
  match lines with
  | [] => .ok st
  | l :: rest =>
    match parseStep idx l st with
    | .error e => .error e
    | .ok st' => parseLoop (idx + 1) rest st'

/-- The trailing `if spyce_jar: _store_spyce_jar(None)` after the loop. -/
def finalizePSt (st : PSt) : PSt :=
  match st.cur with
  | some oj => storeCurAuto st oj
  | none => st

def initPSt : PSt := ⟨[], none, none, none⟩

def parseLines (lines : List (List Char)) : Except PErr PSt :=
  match parseLoop 0 lines initPSt with
  | .error e => .error e
  | .ok st => .ok (finalizePSt st)

/-! ## The document model (`SpycyFile`) and its mutators -/

structure SFile where
  lines : List (List Char)
  jars : List (List Char × Jar)
  secSource : Option Int
  secData : Option Int
  contentVersion : Nat
deriving DecidableEq

/-- `SpycyFile.__init__` after a successful parse (`content_version = 0`). -/
def mkSFile (lines : List (List Char)) (pst : PSt) : SFile :=
  ⟨lines, pst.jars, pst.secSource, pst.secData, 0⟩

def parseSFile (lines : List (List Char)) : Except PErr SFile :=
  match parseLines lines with
  | .error e => .error e
  | .ok pst => .ok (mkSFile lines pst)

/-- The per-jar shift of `SpycyFile._update_lines`. -/
def shiftJar (lStart lDiff : Int) (j : Jar) : Jar :=
  if j.start ≥ lStart then { j with start := j.start + lDiff, stop := j.stop + lDiff } else j

/-- `SpycyFile._update_lines`. -/
def updateLines (st : SFile) (lStart lDiff : Int) : SFile :=
  { st with
    jars := st.jars.map (fun p => (p.1, shiftJar lStart lDiff p.2)),
    secSource := st.secSource.map (fun m => if m > lStart then m + lDiff else m),
    secData := st.secData.map (fun m => if m > lStart then m + lDiff else m) }

/-- Python `del lines[s:e]`; slice indices are nonnegative and in range in
every reachable state, where this agrees with Python slicing. -/
def cutLines (lines : List (List Char)) (s e : Int) : List (List Char) :=
  lines.take s.toNat ++ lines.drop e.toNat

/-- Python `lines[p:p] = block`. -/
def spliceLines (lines : List (List Char)) (p : Int) (block : List (List Char)) :
    List (List Char) :=
  lines.take p.toNat ++ block ++ lines.drop p.toNat

/-- `SpycyFile.__delitem__`; `none` models the `KeyError` on an unknown
name. -/
def delItem (st : SFile) (name : List Char) : Option SFile :=
  match alookup name st.jars with
  | none => none
  | some j =>
    let st1 := { st with jars := aremove name st.jars,
                         lines := cutLines st.lines j.start j.stop }
    let st2 := updateLines st1 j.start (-(j.stop - j.start))
    some { st2 with contentVersion := st2.contentVersion + 1 }

inductive CVal
  | text (s : List Char)
  | bytes (b : List Nat)
deriving DecidableEq

/-- A `Spyce` object handed to `__setitem__`: the class — and with it the
type tag and codec — is determined by the content constructor. -/
structure SpyceV where
  sec : SSec
  name : List Char
  content : CVal
  conf : List (List Char × List Char)
deriving DecidableEq

def SpyceV.ty (sv : SpyceV) : SpyceTy :=
  match sv.content with
  | .text _ => .text
  | .bytes _ => .bytes

/-- `spyce.encode(content)` at the default max line length. -/
def encodeContent (sv : SpyceV) : List (List Char) :=
  match sv.content with
  | .text s => TextSpyce.encode s
  | .bytes b => BytesSpyce.encode b

/-- `Spyce.build_fq_name(section, name, spyce_type)`. -/
def fqName (sv : SpyceV) : List Char :=
  sv.sec.toChars ++ s2l "/" ++ sv.name ++ s2l ":" ++ sv.ty.toChars

/-- The block `__setitem__` splices in: start marker, one conf line per
entry (`json.dumps` output already serialized in the entry), encoded
payload, end marker. -/
def mkBlock (sv : SpyceV) : List (List Char) :=
  (s2l "# spyce: start " ++ fqName sv ++ ['\n'])
    :: (sv.conf.map (fun kv => s2l "# spyce: conf: " ++ kv.1 ++ s2l "=" ++ kv.2 ++ ['\n'])
        ++ encodeContent sv
        ++ [s2l "# spyce: end " ++ fqName sv ++ ['\n']])

/-- The `source` default insertion point: the first line not starting with
`#!`. On an empty buffer the loop variable is unbound and the source
raises `NameError` (`none` here); when every line is a shebang line the
loop ends without `break` and the last index is used. -/
def firstNonShebang (lines : List (List Char)) : Option Int :=
  match lines with
  | [] => none
  | _ =>
    match lines.findIdx? (fun l => !((s2l "#!").isPrefixOf l)) with
    | some i => some (i : Int)
    | none => some ((lines.length : Int) - 1)

def secAnchor (st : SFile) (s : SSec) : Option Int :=
  match s with
  | .source => st.secSource
  | .data => st.secData

/-- Python `max(list)` over a nonempty list. -/
def maxEnds : List Int → Option Int
  | [] => none
  | e :: es => some (es.foldl max e)

/-- The insertion point chosen by `__setitem__` for a fresh name.
`if self.section[section]:` is Python truthiness: both `None` and `0`
fall through to the default placement. -/
def placement (st : SFile) (sec : SSec) : Option Int :=
  match maxEnds (st.jars.filterMap (fun p => if p.2.sec = sec then some p.2.stop else none)) with
  | some e => some e
  | none =>
    let dflt : Option Int :=
      match sec with
      | .source => firstNonShebang st.lines
      | .data => some (st.lines.length : Int)
    match secAnchor st sec with
    | some m => if m ≠ 0 then some (m + 1) else dflt
    | none => dflt

/-- The tail of `__setitem__`: splice the block, shift later offsets,
store the new jar (built with `conf=None`, hence `num_params = 0`). -/
def insertBlock (st : SFile) (sv : SpyceV) (p : Int) : SFile :=
  let block := mkBlock sv
  let st1 := { st with lines := spliceLines st.lines p block }
  let st2 := updateLines st1 p (block.length : Int)
  { st2 with
    jars := aset sv.name ⟨sv.sec, sv.name, sv.ty, p, p + (block.length : Int), 0⟩ st2.jars }

/-- `SpycyFile.__setitem__`: bump the version, delete an existing jar with
the same name (bumping again) and reuse its start, or compute a fresh
placement. -/
def setItem (st : SFile) (sv : SpyceV) : Option SFile :=
  let st0 := { st with contentVersion := st.contentVersion + 1 }
  match alookup sv.name st0.jars with
  | some old =>
    match delItem st0 sv.name with
    | none => none
    | some st1 => some (insertBlock st1 sv old.start)
  | none =>
    match placement st0 sv.sec with
    | none => none
    | some p => some (insertBlock st0 sv p)

inductive Op
  | set (sv : SpyceV)
  | del (name : List Char)
deriving DecidableEq

def applyOp (op : Op) (st : SFile) : Option SFile :=
  match op with
  | .set sv => setItem st sv
  | .del n => delItem st n

def applyOps : List Op → SFile → Option SFile
  | [], st => some st
  | op :: ops, st =>
    match applyOp op st with
    | none => none
    | some st' => applyOps ops st'

/-- Specification-side record of the content last set per name. -/
def trackStep (op : Op) (tr : List (List Char × SpyceV)) : List (List Char × SpyceV) :=
  match op with
  | .set sv => aset sv.name sv tr
  | .del n => aremove n tr

def trackOps (ops : List Op) : List (List Char × SpyceV) :=
  ops.foldl (fun tr op => trackStep op tr) []

/-- Bytes contents handed to `__setitem__` are Python `bytes`: every
element below 256. -/
def opWF (op : Op) : Bool :=
  match op with
  | .set sv =>
    match sv.content with
    | .bytes b => b.all (· < 256)
    | .text _ => true
  | .del _ => true

/-- The `[start, stop)` slice of the line buffer. -/
def sliceL (lines : List (List Char)) (s e : Int) : List (List Char) :=
  (lines.drop s.toNat).take (e - s).toNat

/-- A jar slice stripped of its start marker, its configuration lines and
its end marker. -/
def strippedSlice (st : SFile) (j : Jar) (nconf : Nat) : List (List Char) :=
  sliceL st.lines (j.start + 1 + nconf) (j.stop - 1)

/-- Two jars occupy disjoint line ranges. -/
def JarDisj (j k : Jar) : Prop := j.stop ≤ k.start ∨ k.stop ≤ j.start

instance : DecidablePred fun p : Jar × Jar => JarDisj p.1 p.2 := fun p => by
  unfold JarDisj
  infer_instance

/-! ## The transactional rewriter (`SpycyFile.refactor`) -/

structure RefactorResult where
  doc : SFile
  backupMade : Bool
  written : Option (List Char)
  modeCopied : Bool
  bodyRaised : Bool
  pathUnsetError : Bool
deriving DecidableEq

/-- `SpycyFile.refactor(...)` as a pure function over an abstract body.
`path?` is `self.path` (`none` for a stream-backed document), `pathIsFile`
is `self.path.is_file()`, and `body` returns the mutated document plus
whether the with-block raised. A raising body propagates through the
`yield` of the `@contextmanager` generator, skipping every line of
write-back code. Inside the generator `output_path is self.path` holds
exactly when `output_path` was not passed and the version changed (then
`output_path = self.path` aliases the same object); an explicit argument
is rewrapped as `Path(output_path)`, a fresh object, so `is` is false for
it. The guarded block then assigns `backup = False` immediately before
testing `if backup and self.path.is_file()`. -/
def refactor (path? : Option (List Char)) (pathIsFile : Bool)
    (outputPathArg : Option (List Char)) (backup : Bool) (doc : SFile)
    (body : SFile → SFile × Bool) : RefactorResult :=
  match path? with
  | none => ⟨doc, false, none, false, false, true⟩
  | some path =>
    let v0 := doc.contentVersion
    match body doc with
    | (doc1, true) => ⟨doc1, false, none, false, true, false⟩
    | (doc1, false) =>
      let outputPath : Option (List Char) :=
        match outputPathArg with
        | none => if v0 ≠ doc1.contentVersion then some path else none
        | some p => some p
      let isSelf : Bool := outputPathArg.isNone && decide (v0 ≠ doc1.contentVersion)
      let cond := isSelf || !pathIsFile
      let backup2 := if cond then false else backup
      let backupMade := if cond then backup2 && pathIsFile else false
      ⟨doc1, backupMade, outputPath, outputPath.isSome && pathIsFile, false, false⟩

theorem splitNl_ne_nil (s : List Char) : splitNl s ≠ [] := by
  cases s with
  | nil => simp [splitNl]
  | cons c cs =>
    unfold splitNl
    by_cases hc : c = '\n'
    · simp [hc]
    · cases h : splitNl cs with
      | nil => simp [hc, h]
      | cons hd tl => simp [hc, h]

theorem text_roundtrip (s : List Char) :
    TextSpyce.decode (TextSpyce.encode s) = s ++ ['\n'] := by
  unfold TextSpyce.decode TextSpyce.encode
  induction s with
  | nil => rfl
  | cons c cs ih =>
    by_cases hc : c = '\n'
    · have hsplit : splitNl (c :: cs) = [] :: splitNl cs := by
        rw [splitNl, if_pos hc]
      rw [hsplit, List.map_cons, List.flatten_cons, ih, hc]
      rfl
    · cases h : splitNl cs with
      | nil => exact absurd h (splitNl_ne_nil cs)
      | cons hd tl =>
        have hsplit : splitNl (c :: cs) = (c :: hd) :: tl := by
          rw [splitNl, if_neg hc, h]
        rw [h, List.map_cons, List.flatten_cons] at ih
        rw [hsplit, List.map_cons, List.flatten_cons]
        simp only [List.cons_append]
        rw [ih]

theorem pyStrip_no_ws_nl (l : List Char) (hne : l ≠ []) (h : ∀ c ∈ l, isWsC c = false) :
    pyStrip (l ++ ['\n']) = l := by
  unfold pyStrip
  have h1 : (l ++ ['\n']).dropWhile isWsC = l ++ ['\n'] := by
    cases l with
    | nil => exact absurd rfl hne
    | cons x t =>
      rw [List.cons_append, List.dropWhile_cons]
      rw [h x (by simp)]
      simp
  rw [h1]
  have h2 : (l ++ ['\n']).reverse = '\n' :: l.reverse := by simp
  rw [h2, List.dropWhile_cons]
  rw [show isWsC '\n' = true from rfl]
  simp only [if_pos]
  cases hrev : l.reverse with
  | nil => exact absurd (by rw [← List.reverse_reverse l, hrev]; rfl) hne
  | cons y t' =>
    have hy : y ∈ l := by
      rw [← List.reverse_reverse l, hrev]
      simp
    rw [List.dropWhile_cons, h y hy]
    simp only [Bool.false_eq_true, if_neg, ite_false]
    rw [← hrev, List.reverse_reverse]

theorem bytes_roundtrip_general (m : Nat) (content : List Nat)
    (h : ∀ x ∈ content, x < 256) :
    BytesSpyce.decode (BytesSpyce.encodeWith m content) = some content := by
  unfold BytesSpyce.decode BytesSpyce.encodeWith
  dsimp only
  set dlen := max (m - dataPfx.length) (dataPfx.length + 1) with hdlen
  have hdpos : 0 < dlen := by
    rw [hdlen]
    have := Nat.le_max_right (m - dataPfx.length) (dataPfx.length + 1)
    omega
  have hfil : ((pyChunks dlen (b85encode content)).map
      (fun chunk => dataPfx ++ chunk ++ ['\n'])).filter (fun l => dataPfx.isPrefixOf l)
      = (pyChunks dlen (b85encode content)).map (fun chunk => dataPfx ++ chunk ++ ['\n']) := by
    rw [List.filter_eq_self]
    intro a ha
    rw [List.mem_map] at ha
    obtain ⟨chunk, _, rfl⟩ := ha
    rw [List.append_assoc]
    simp [List.isPrefixOf_iff_prefix, List.prefix_append]
  rw [hfil, List.map_map]
  have hmap : ((pyChunks dlen (b85encode content)).map
      ((fun l => pyStrip (l.drop dataPfx.length)) ∘ (fun chunk => dataPfx ++ chunk ++ ['\n'])))
      = (pyChunks dlen (b85encode content)).map id := by
    apply List.map_congr_left
    intro chunk hchunk
    simp only [Function.comp_apply, id_eq]
    rw [List.append_assoc, List.drop_left]
    apply pyStrip_no_ws_nl
    · exact pyChunks_mem_ne_nil dlen hdpos _ _ hchunk
    · intro c hc
      exact b85chars_not_ws c (b85encode_mem content c (pyChunks_mem_subset _ _ _ hchunk _ hc))
  rw [hmap, List.map_id, pyChunks_flatten dlen hdpos, b85_roundtrip content h]

example : parseSFile [s2l "# spyce: start data/x:bytes\n", s2l "# spyce: end data/x:bytes\n"]
    = .ok ⟨[s2l "# spyce: start data/x:bytes\n", s2l "# spyce: end data/x:bytes\n"],
           [(s2l "x", ⟨SSec.data, s2l "x", SpyceTy.bytes, 0, 2, 0⟩)], none, none, 0⟩ := by
  decide

example :
    (parseSFile [s2l "# spyce: start data/x:bytes\n", s2l "# spyce: end data/x:bytes\n"]
        ).toOption.bind
      (fun st0 => setItem st0 ⟨SSec.data, s2l "x", CVal.bytes [], []⟩)
    = some ⟨[s2l "# spyce: start data/x:bytes\n", s2l "# spyce: end data/x:bytes\n"],
            [(s2l "x", ⟨SSec.data, s2l "x", SpyceTy.bytes, 0, 2, 0⟩)], none, none, 2⟩ := by
  decide

example :
    (parseSFile [s2l "x\n"]).toOption.bind
      (fun st0 => setItem st0 ⟨SSec.source, s2l "a", CVal.text (s2l "Y"), []⟩)
    = some ⟨[s2l "# spyce: start source/a:text\n", s2l "Y\n", s2l "# spyce: end source/a:text\n",
             s2l "x\n"],
            [(s2l "a", ⟨SSec.source, s2l "a", SpyceTy.text, 0, 3, 0⟩)], none, none, 1⟩ := by
  decide

example : parseSFile [s2l "# spyce: start data/x\n"]
    = .ok ⟨[s2l "# spyce: start data/x\n"],
           [(s2l "x", ⟨SSec.data, s2l "x", SpyceTy.bytes, 0, 1, 0⟩)], none, none, 0⟩ := by
  decide

example : parseSFile [s2l "# spyce: end data/x\n"] = .error (.unexpectedDirective 0) := by
  decide

/-! ## Helper lemmas for the claim theorems -/

theorem encodeWith_mem_pfx (m : Nat) (content : List Nat) (l : List Char)
    (hl : l ∈ BytesSpyce.encodeWith m content) : dataPfx.isPrefixOf l = true := by
  unfold BytesSpyce.encodeWith at hl
  dsimp only at hl
  rw [List.mem_map] at hl
  obtain ⟨chunk, _, rfl⟩ := hl
  rw [List.append_assoc]
  simp [List.isPrefixOf_iff_prefix, List.prefix_append]

theorem interleave_filter {α : Type} (p : α → Bool) (xs ys zs : List α)
    (h : Interleave xs ys zs) (hx : ∀ x ∈ xs, p x = true) (hy : ∀ y ∈ ys, p y = false) :
    zs.filter p = xs := by
  induction h with
  | nil => rfl
  | left h ih =>
    rw [List.filter_cons]
    rw [hx _ (by simp)]
    simp only [if_pos]
    rw [ih (fun x hxm => hx x (by simp [hxm])) hy]
  | right h ih =>
    rw [List.filter_cons]
    rw [hy _ (by simp)]
    simp only [Bool.false_eq_true, if_false, ite_false]
    exact ih hx (fun y hym => hy y (by simp [hym]))

theorem interleave_nil_right {α : Type} (xs : List α) : Interleave xs [] xs := by
  induction xs with
  | nil => exact .nil
  | cons x t ih => exact .left ih

theorem refactor_backup_never (path? : Option (List Char)) (pathIsFile : Bool)
    (outputPathArg : Option (List Char)) (backup : Bool) (doc : SFile)
    (body : SFile → SFile × Bool) :
    (refactor path? pathIsFile outputPathArg backup doc body).backupMade = false := by
  unfold refactor
  cases path? with
  | none => rfl
  | some p =>
    cases hb : body doc with
    | mk doc1 raised =>
      cases raised
      · dsimp only
        cases hcond : ((outputPathArg.isNone && decide (doc.contentVersion ≠
            doc1.contentVersion)) || !pathIsFile) <;> simp [hcond]
      · rfl

/-! ## Claim theorems -/

/-- C1 counterexample: the text codec is not an exact inverse. For the
content `"x"`, `TextSpyce.decode(TextSpyce.encode("x"))` is `"x\n"`, not
`"x"`: the encoder re-appends a newline to every piece of
`content.split('\n')`, so the round trip appends one trailing newline. -/
theorem C1_counterexample :
    TextSpyce.decode (TextSpyce.encode (s2l "x")) = s2l "x\n"
    ∧ TextSpyce.decode (TextSpyce.encode (s2l "x")) ≠ s2l "x" := by
  decide

/-- C1 (amended): for every text content, decode after encode yields the
content plus one trailing newline; for every bytes content (empty
included), decode after encode yields exactly the content. -/
theorem C1_theorem :
    (∀ s : List Char, TextSpyce.decode (TextSpyce.encode s) = s ++ ['\n'])
    ∧ (∀ b : List Nat, (∀ x ∈ b, x < 256) →
        BytesSpyce.decode (BytesSpyce.encode b) = some b) := by
  constructor
  · exact text_roundtrip
  · intro b hb
    exact bytes_roundtrip_general 120 b hb

/-- C1 witness: the amended round trips at concrete inputs, text with an
embedded newline and bytes with boundary values, and on empty bytes. -/
theorem C1_witness :
    TextSpyce.decode (TextSpyce.encode (s2l "ab\nc")) = s2l "ab\nc" ++ ['\n']
    ∧ BytesSpyce.decode (BytesSpyce.encode [0, 255]) = some [0, 255]
    ∧ BytesSpyce.decode (BytesSpyce.encode []) = some [] :=
  ⟨C1_theorem.1 (s2l "ab\nc"), C1_theorem.2 [0, 255] (by decide), C1_theorem.2 [] (by decide)⟩

/-- C7 counterexample: with `MAX_LINE_LENGTH = 2` there is no room for the
sentinel `#|` plus a data character, yet `BytesSpyce.encode` raises no
configuration error: it clamps the chunk width to `len('#|') + 1 = 3` and
produces a (decodable) line that exceeds the configured maximum. -/
theorem C7_counterexample :
    BytesSpyce.encodeWith 2 [0] = [s2l "#|00\n"]
    ∧ BytesSpyce.encodeWith 2 [0] ≠ []
    ∧ (s2l "#|00\n").length > 2
    ∧ BytesSpyce.decode (BytesSpyce.encodeWith 2 [0]) = some [0] := by
  decide

/-- C7 (amended): a too-small configured max line length is not an error:
for every max line length at most `2 * len('#|') + 1 = 5` the encoder
behaves as if the max were 5 (chunk width clamped to `len('#|') + 1`), and
for every max line length whatsoever the produced lines decode back to the
content. -/
theorem C7_theorem (m : Nat) (content : List Nat) (h : ∀ x ∈ content, x < 256) :
    (m ≤ 5 → BytesSpyce.encodeWith m content = BytesSpyce.encodeWith 5 content)
    ∧ BytesSpyce.decode (BytesSpyce.encodeWith m content) = some content := by
  constructor
  · intro hm
    unfold BytesSpyce.encodeWith
    have hclamp : max (m - dataPfx.length) (dataPfx.length + 1)
        = max (5 - dataPfx.length) (dataPfx.length + 1) := by
      rw [show dataPfx.length = 2 from rfl]
      omega
    rw [hclamp]
  · exact bytes_roundtrip_general m content h

/-- C7 witness: at the too-small max line length 2 the encoder equals the
clamped encoder and round-trips on a concrete payload. -/
theorem C7_witness :
    BytesSpyce.encodeWith 2 [7, 8] = BytesSpyce.encodeWith 5 [7, 8]
    ∧ BytesSpyce.decode (BytesSpyce.encodeWith 2 [7, 8]) = some [7, 8] :=
  ⟨(C7_theorem 2 [7, 8] (by decide)).1 (by decide), (C7_theorem 2 [7, 8] (by decide)).2⟩

/-- C10: `BytesSpyce.decode` ignores every line that does not start with
the `#|` sentinel: interleaving any such lines among the encoder output
leaves the decoded result equal to the content, and no error occurs. -/
theorem C10_theorem (content : List Nat) (hc : ∀ x ∈ content, x < 256)
    (extra : List (List Char)) (hextra : ∀ l ∈ extra, dataPfx.isPrefixOf l = false)
    (merged : List (List Char)) (hm : Interleave (BytesSpyce.encode content) extra merged) :
    BytesSpyce.decode merged = some content := by
  have hfil : merged.filter (fun l => dataPfx.isPrefixOf l) = BytesSpyce.encode content :=
    interleave_filter _ _ _ _ hm (fun l hl => encodeWith_mem_pfx 120 content l hl) hextra
  have hfil2 : (BytesSpyce.encode content).filter (fun l => dataPfx.isPrefixOf l)
      = BytesSpyce.encode content :=
    interleave_filter _ _ _ _ (interleave_nil_right _)
      (fun l hl => encodeWith_mem_pfx 120 content l hl) (by simp)
  have : BytesSpyce.decode merged = BytesSpyce.decode (BytesSpyce.encode content) := by
    unfold BytesSpyce.decode
    rw [hfil, hfil2]
  rw [this]
  exact bytes_roundtrip_general 120 content hc

/-- C10 witness: a stray non-sentinel line interleaved in front of the
encoded payload lines is ignored by the decoder. -/
theorem C10_witness :
    BytesSpyce.decode (s2l "hello\n" :: BytesSpyce.encode [1, 2, 255]) = some [1, 2, 255] :=
  C10_theorem [1, 2, 255] (by decide) [s2l "hello\n"] (by decide) _
    (.right (interleave_nil_right _))

/-- C8: the emitted api snippet decoder is not an inverse of the core
encoder. The core `BytesSpyce.encode` emits base85 (`b'\x00\x00\x00'`
encodes to the line `#|0000`), but `api.BytesSpyceObj._build_content`
decodes with `base64.b64decode`, returning `b'\xd3\x4d\x34'` — not the
original bytes. -/
theorem C8_theorem :
    apiBytesBuildContent (BytesSpyce.encode [0, 0, 0]) = some [211, 77, 52]
    ∧ some [211, 77, 52] ≠ some [0, 0, 0]
    ∧ BytesSpyce.decode (BytesSpyce.encode [0, 0, 0]) = some [0, 0, 0] := by
  decide

/-- C3: the backup branch of `refactor` is dead code: `backup = False` is
assigned immediately before `if backup and self.path.is_file()`, so with
`backup=True`, an in-place write (no output path, version changed) to an
existing file, the original is still not copied to a backup path, while
the file itself is rewritten. -/
theorem C3_theorem :
    (refactor (some (s2l "f.py")) true none true ⟨[s2l "x\n"], [], none, none, 0⟩
      (fun d => ({ d with contentVersion := d.contentVersion + 1 }, false))).backupMade = false
    ∧ (refactor (some (s2l "f.py")) true none true ⟨[s2l "x\n"], [], none, none, 0⟩
      (fun d => ({ d with contentVersion := d.contentVersion + 1 }, false))).written
      = some (s2l "f.py") := by
  decide

/-- C5: a scoped edit whose body leaves the content version unchanged and
whose output path is unset writes nothing: no file write, no backup, no
permission copy. -/
theorem C5_theorem (path : List Char) (pathIsFile : Bool) (backup : Bool) (doc doc1 : SFile)
    (body : SFile → SFile × Bool) (hbody : body doc = (doc1, false))
    (hver : doc1.contentVersion = doc.contentVersion) :
    (refactor (some path) pathIsFile none backup doc body).written = none
    ∧ (refactor (some path) pathIsFile none backup doc body).backupMade = false
    ∧ (refactor (some path) pathIsFile none backup doc body).modeCopied = false
    ∧ (refactor (some path) pathIsFile none backup doc body).bodyRaised = false := by
  unfold refactor
  rw [hbody]
  dsimp only
  rw [hver]
  cases pathIsFile <;> simp

/-- C5 witness: a no-op body on a concrete document writes nothing. -/
theorem C5_witness :
    (refactor (some (s2l "f.py")) true none true ⟨[s2l "x\n"], [], none, none, 3⟩
      (fun d => (d, false))).written = none
    ∧ (refactor (some (s2l "f.py")) true none true ⟨[s2l "x\n"], [], none, none, 3⟩
      (fun d => (d, false))).backupMade = false
    ∧ (refactor (some (s2l "f.py")) true none true ⟨[s2l "x\n"], [], none, none, 3⟩
      (fun d => (d, false))).modeCopied = false
    ∧ (refactor (some (s2l "f.py")) true none true ⟨[s2l "x\n"], [], none, none, 3⟩
      (fun d => (d, false))).bodyRaised = false :=
  C5_theorem (s2l "f.py") true true _ _ _ rfl rfl

/-- C6: when the body of a scoped edit raises, nothing is written to disk
(no write, no backup, no permission copy), the in-memory document keeps
the partial mutations the body made, and the exception propagates. -/
theorem C6_theorem (path : List Char) (pathIsFile : Bool)
    (outputPathArg : Option (List Char)) (backup : Bool) (doc doc1 : SFile)
    (body : SFile → SFile × Bool) (hbody : body doc = (doc1, true)) :
    refactor (some path) pathIsFile outputPathArg backup doc body
      = ⟨doc1, false, none, false, true, false⟩ := by
  unfold refactor
  rw [hbody]

/-- C6 witness: a body that mutates the document and then raises leaves
the mutated document in memory and performs no write. -/
theorem C6_witness :
    refactor (some (s2l "f.py")) true none true ⟨[s2l "x\n"], [], none, none, 0⟩
      (fun d => ({ d with lines := [], contentVersion := d.contentVersion + 1 }, true))
      = ⟨⟨[], [], none, none, 1⟩, false, none, false, true, false⟩ :=
  C6_theorem (s2l "f.py") true none true _ _ _ rfl

/-! ## Parser lemmas for C9 -/

theorem dropLit_pfx (lit l r : List Char) (h : dropLit lit l = some r) :
    lit.isPrefixOf l = true := by
  unfold dropLit at h
  split at h
  · assumption
  · exact absurd h (by simp)

theorem alookup_aset_self {β : Type} (k : List Char) (v : β) (l : List (List Char × β)) :
    alookup k (aset k v l) = some v := by
  induction l with
  | nil => simp [aset, alookup]
  | cons p rest ih =>
    rw [aset]
    by_cases hk : p.1 = k
    · rw [if_pos hk, alookup, if_pos rfl]
    · rw [if_neg hk, alookup, if_neg hk, ih]

theorem parseLoop_append (idx : Nat) (xs ys : List (List Char)) (st : PSt) :
    parseLoop idx (xs ++ ys) st
      = match parseLoop idx xs st with
        | .error e => .error e
        | .ok st' => parseLoop (idx + xs.length) ys st' := by
  induction xs generalizing idx st with
  | nil => simp [parseLoop]
  | cons l rest ih =>
    rw [List.cons_append, parseLoop]
    conv_rhs => rw [parseLoop]
    cases h : parseStep idx l st with
    | error e => rfl
    | ok st2 =>
      dsimp only
      rw [ih (idx + 1) st2]
      rw [show idx + (l :: rest).length = idx + 1 + rest.length by simp; omega]

theorem matchSpyce_section_none (l : List Char) (m : MSpyce) (h : matchSpyce l = some m) :
    matchSection l = none := by
  unfold matchSpyce at h
  obtain ⟨r1, h1⟩ : ∃ r1, dropLit (s2l "# spyce:") l = some r1 := by
    cases hd : dropLit (s2l "# spyce:") l with
    | none => rw [hd] at h; exact absurd h (by simp)
    | some r => exact ⟨r, rfl⟩
  rw [h1] at h
  dsimp only at h
  obtain ⟨r2, h2⟩ : ∃ r2, dropWs1 r1 = some r2 := by
    cases hd : dropWs1 r1 with
    | none => rw [hd] at h; exact absurd h (by simp)
    | some r => exact ⟨r, rfl⟩
  rw [h2] at h
  dsimp only at h
  have hact : (dropLit (s2l "start") r2).isSome = true
      ∨ (dropLit (s2l "end") r2).isSome = true := by
    cases hd4 : dropLit (s2l "start") r2 with
    | some r => exact Or.inl rfl
    | none =>
      cases hd5 : dropLit (s2l "end") r2 with
      | some r => exact Or.inr rfl
      | none => rw [hd4, hd5] at h; exact absurd h (by simp)
  unfold matchSection
  rw [h1]
  dsimp only
  rw [h2]
  dsimp only
  cases h3 : dropLit (s2l "section") r2 with
  | none => rfl
  | some r3 =>
    exfalso
    have hsec := dropLit_pfx _ _ _ h3
    rw [List.isPrefixOf_iff_prefix] at hsec
    obtain ⟨t, ht⟩ := hsec
    rcases hact with hs | he
    · obtain ⟨r, hr⟩ := Option.isSome_iff_exists.mp hs
      have hst := dropLit_pfx _ _ _ hr
      rw [List.isPrefixOf_iff_prefix] at hst
      obtain ⟨u, hu⟩ := hst
      rw [← ht] at hu
      rw [show s2l "section" = ['s', 'e', 'c', 't', 'i', 'o', 'n'] from rfl,
        show s2l "start" = ['s', 't', 'a', 'r', 't'] from rfl] at hu
      simp at hu
    · obtain ⟨r, hr⟩ := Option.isSome_iff_exists.mp he
      have hen := dropLit_pfx _ _ _ hr
      rw [List.isPrefixOf_iff_prefix] at hen
      obtain ⟨u, hu⟩ := hen
      rw [← ht] at hu
      rw [show s2l "section" = ['s', 'e', 'c', 't', 'i', 'o', 'n'] from rfl,
        show s2l "end" = ['e', 'n', 'd'] from rfl] at hu
      simp at hu

theorem parseStep_end_mismatch (idx : Nat) (line : List Char) (st : PSt) (m : MSpyce)
    (hm : matchSpyce line = some m) (hstart : m.isStart = false)
    (hmis : ∀ oj, st.cur = some oj → ¬(m.sec = oj.sec ∧ m.name = oj.name)) :
    parseStep idx line st = .error (.unexpectedDirective idx) := by
  unfold parseStep
  rw [matchSpyce_section_none line m hm, hm]
  dsimp only
  rw [hstart]
  simp only [Bool.false_eq_true, if_false, ite_false]
  cases hcur : st.cur with
  | none => rfl
  | some oj =>
    dsimp only
    rw [if_neg (hmis oj hcur)]

/-- C9: EOF auto-close versus explicit end-marker mismatch. If scanning a
line buffer succeeds and leaves a region open (its last start marker has no
matching end), the parse does not raise: the dangling region is stored
auto-closed with `end = start + num_params + 1`, covering only its own
marker and configuration lines. An explicit end-marker line whose
section or name does not match the open region — or arriving with no
region open — raises a parse error. -/
theorem C9_theorem (lines : List (List Char)) (st : PSt)
    (hok : parseLoop 0 lines initPSt = .ok st) :
    (∀ oj, st.cur = some oj →
      ∃ st', parseLines lines = .ok st'
        ∧ alookup oj.name st'.jars
            = some ⟨oj.sec, oj.name, oj.ty, oj.start, oj.start + oj.numParams + 1,
                oj.numParams⟩)
    ∧ (∀ line m, matchSpyce line = some m → m.isStart = false →
        (∀ oj, st.cur = some oj → ¬(m.sec = oj.sec ∧ m.name = oj.name)) →
        parseLines (lines ++ [line]) = .error (.unexpectedDirective lines.length)) := by
  constructor
  · intro oj hoj
    refine ⟨finalizePSt st, ?_, ?_⟩
    · unfold parseLines
      rw [hok]
    · unfold finalizePSt
      rw [hoj]
      unfold storeCurAuto storeCur
      exact alookup_aset_self _ _ _
  · intro line m hm hstart hmis
    unfold parseLines
    rw [parseLoop_append 0 lines [line] initPSt, hok]
    dsimp only
    rw [parseLoop, parseStep_end_mismatch (0 + lines.length) line st m hm hstart hmis]
    rw [Nat.zero_add]

/-- C9 witness: a buffer whose single line is an unmatched start marker
parses without error into an empty auto-closed region `[0, 1)`; appending
an end marker for a different name raises. -/
theorem C9_witness :
    (∃ st', parseLines [s2l "# spyce: start data/x\n"] = .ok st'
       ∧ alookup (s2l "x") st'.jars
           = some ⟨SSec.data, s2l "x", SpyceTy.bytes, 0, 0 + 0 + 1, 0⟩)
    ∧ parseLines ([s2l "# spyce: start data/x\n"] ++ [s2l "# spyce: end data/y\n"])
        = .error (.unexpectedDirective 1) := by
  have h := C9_theorem [s2l "# spyce: start data/x\n"]
    ⟨[], some ⟨SSec.data, s2l "x", SpyceTy.bytes, 0, 0⟩, none, none⟩ (by decide)
  refine ⟨h.1 ⟨SSec.data, s2l "x", SpyceTy.bytes, 0, 0⟩ rfl, ?_⟩
  exact h.2 (s2l "# spyce: end data/y\n") ⟨false, SSec.data, s2l "y", none⟩ (by decide) rfl
    (fun oj hoj => by
      obtain rfl := Option.some_inj.mp hoj
      decide)

/-! ## Content-version lemmas (C4) -/

theorem updateLines_version (st : SFile) (ls ld : Int) :
    (updateLines st ls ld).contentVersion = st.contentVersion := rfl

theorem insertBlock_version (st : SFile) (sv : SpyceV) (p : Int) :
    (insertBlock st sv p).contentVersion = st.contentVersion := rfl

theorem delItem_version (st : SFile) (n : List Char) (st' : SFile)
    (h : delItem st n = some st') : st'.contentVersion = st.contentVersion + 1 := by
  unfold delItem at h
  obtain ⟨j, ha⟩ : ∃ j, alookup n st.jars = some j := by
    cases ha : alookup n st.jars with
    | none => rw [ha] at h; exact absurd h (by simp)
    | some j => exact ⟨j, rfl⟩
  rw [ha] at h
  dsimp only at h
  injection h with h2
  rw [← h2]
  rfl

theorem setItem_version (st : SFile) (sv : SpyceV) (st' : SFile)
    (h : setItem st sv = some st') :
    st'.contentVersion = st.contentVersion + 1 ∨ st'.contentVersion = st.contentVersion + 2 := by
  unfold setItem at h
  dsimp only at h
  cases ha : alookup sv.name st.jars with
  | some old =>
    rw [ha] at h
    dsimp only at h
    cases hdel : delItem { st with contentVersion := st.contentVersion + 1 } sv.name with
    | none => rw [hdel] at h; exact absurd h (by simp)
    | some st1 =>
      rw [hdel] at h
      dsimp only at h
      injection h with h2
      right
      rw [← h2, insertBlock_version, delItem_version _ _ _ hdel]
  | none =>
    rw [ha] at h
    dsimp only at h
    cases hp : placement { st with contentVersion := st.contentVersion + 1 } sv.sec with
    | none => rw [hp] at h; exact absurd h (by simp)
    | some p =>
      rw [hp] at h
      dsimp only at h
      injection h with h2
      left
      rw [← h2, insertBlock_version]

theorem applyOp_version (op : Op) (st st' : SFile) (h : applyOp op st = some st') :
    st.contentVersion < st'.contentVersion := by
  cases op with
  | set sv =>
    rcases setItem_version st sv st' h with h2 | h2 <;> omega
  | del n =>
    have h2 := delItem_version st n st' h
    omega

theorem applyOps_version_le (ops : List Op) (st st' : SFile)
    (h : applyOps ops st = some st') : st.contentVersion ≤ st'.contentVersion := by
  induction ops generalizing st with
  | nil =>
    unfold applyOps at h
    injection h with h2
    rw [h2]
  | cons op rest ih =>
    unfold applyOps at h
    cases hop : applyOp op st with
    | none => rw [hop] at h; exact absurd h (by simp)
    | some st1 =>
      rw [hop] at h
      dsimp only at h
      have := applyOp_version op st st1 hop
      have := ih st1 h
      omega

/-- C4 counterexample: replacing a region with an identical spyce leaves
the line buffer byte-identical to the parsed file while `content_version`
goes from 0 to 2 (`__setitem__` bumps once, and the inner `__delitem__`
bumps again), so the version changes without a line-buffer change. -/
theorem C4_counterexample :
    parseSFile [s2l "# spyce: start data/x:bytes\n", s2l "# spyce: end data/x:bytes\n"]
      = .ok ⟨[s2l "# spyce: start data/x:bytes\n", s2l "# spyce: end data/x:bytes\n"],
             [(s2l "x", ⟨SSec.data, s2l "x", SpyceTy.bytes, 0, 2, 0⟩)], none, none, 0⟩
    ∧ setItem ⟨[s2l "# spyce: start data/x:bytes\n", s2l "# spyce: end data/x:bytes\n"],
             [(s2l "x", ⟨SSec.data, s2l "x", SpyceTy.bytes, 0, 2, 0⟩)], none, none, 0⟩
        ⟨SSec.data, s2l "x", CVal.bytes [], []⟩
      = some ⟨[s2l "# spyce: start data/x:bytes\n", s2l "# spyce: end data/x:bytes\n"],
             [(s2l "x", ⟨SSec.data, s2l "x", SpyceTy.bytes, 0, 2, 0⟩)], none, none, 2⟩
    ∧ (2 : Nat) ≠ 0 := by
  decide

/-- C4 (amended): `content_version` strictly increases on every successful
`__setitem__`/`__delitem__`, so any sequence of operations that changed
the line buffer also changed the version; but the version can change with
the buffer left byte-identical (for instance rewriting a region with an
identical serialized block), so the change is not an "if and only if". -/
theorem C4_theorem :
    (∀ op st st', applyOp op st = some st' → st.contentVersion < st'.contentVersion)
    ∧ (∀ ops st st', applyOps ops st = some st' → st.lines ≠ st'.lines →
        st.contentVersion ≠ st'.contentVersion) := by
  refine ⟨applyOp_version, ?_⟩
  intro ops st st' h hlines
  cases ops with
  | nil =>
    unfold applyOps at h
    injection h with h2
    rw [h2] at hlines
    exact absurd rfl hlines
  | cons op rest =>
    unfold applyOps at h
    cases hop : applyOp op st with
    | none => rw [hop] at h; exact absurd h (by simp)
    | some st1 =>
      rw [hop] at h
      dsimp only at h
      have h1 := applyOp_version op st st1 hop
      have h2 := applyOps_version_le rest st1 st' h
      omega

/-- C4 witness: the amended claim applied to a concrete delete: the
operation bumps the version, and a one-operation sequence that changes
the buffer changes the version. -/
theorem C4_witness :
    (⟨[s2l "# spyce: start data/x:bytes\n", s2l "# spyce: end data/x:bytes\n"],
      [(s2l "x", ⟨SSec.data, s2l "x", SpyceTy.bytes, 0, 2, 0⟩)], none, none, 0⟩
      : SFile).contentVersion
      < (⟨[], [], none, none, 1⟩ : SFile).contentVersion
    ∧ (⟨[s2l "# spyce: start data/x:bytes\n", s2l "# spyce: end data/x:bytes\n"],
      [(s2l "x", ⟨SSec.data, s2l "x", SpyceTy.bytes, 0, 2, 0⟩)], none, none, 0⟩
      : SFile).contentVersion
      ≠ (⟨[], [], none, none, 1⟩ : SFile).contentVersion :=
  ⟨C4_theorem.1 (.del (s2l "x"))
      ⟨[s2l "# spyce: start data/x:bytes\n", s2l "# spyce: end data/x:bytes\n"],
       [(s2l "x", ⟨SSec.data, s2l "x", SpyceTy.bytes, 0, 2, 0⟩)], none, none, 0⟩
      ⟨[], [], none, none, 1⟩ (by decide),
   C4_theorem.2 [.del (s2l "x")]
      ⟨[s2l "# spyce: start data/x:bytes\n", s2l "# spyce: end data/x:bytes\n"],
       [(s2l "x", ⟨SSec.data, s2l "x", SpyceTy.bytes, 0, 2, 0⟩)], none, none, 0⟩
      ⟨[], [], none, none, 1⟩ (by decide) (by decide)⟩

/-! ## Association-list and slice lemmas for the offset invariant (C2) -/

def lineAt (lines : List (List Char)) (i : Int) : List Char := lines.getD i.toNat []

theorem alookup_aset_ne {β : Type} (k k' : List Char) (v : β) (l : List (List Char × β))
    (hne : k' ≠ k) : alookup k' (aset k v l) = alookup k' l := by
  induction l with
  | nil =>
    simp only [aset, alookup]
    rw [if_neg (fun h => hne h.symm)]
  | cons p rest ih =>
    rw [aset]
    by_cases hk : p.1 = k
    · rw [if_pos hk]
      simp only [alookup]
      rw [if_neg (fun h => hne h.symm), if_neg (fun h => hne (show k' = k by rw [← h, hk]))]
    · rw [if_neg hk]
      simp only [alookup]
      rw [ih]

theorem alookup_mem {β : Type} (k : List Char) (v : β) (l : List (List Char × β))
    (h : alookup k l = some v) : (k, v) ∈ l := by
  induction l with
  | nil => rw [alookup] at h; exact absurd h (by simp)
  | cons p rest ih =>
    obtain ⟨p1, p2⟩ := p
    rw [alookup] at h
    split at h
    · rename_i hk
      injection h with h2
      dsimp only at hk
      rw [← hk, ← h2]
      exact List.mem_cons_self _ _
    · exact List.mem_cons_of_mem _ (ih h)

theorem alookup_none_iff {β : Type} (k : List Char) (l : List (List Char × β)) :
    alookup k l = none ↔ ∀ p ∈ l, p.1 ≠ k := by
  induction l with
  | nil => simp [alookup]
  | cons p rest ih =>
    rw [alookup]
    by_cases hk : p.1 = k
    · rw [if_pos hk]
      constructor
      · intro h
        exact absurd h (by simp)
      · intro h
        exact absurd hk (h p (by simp))
    · rw [if_neg hk, ih]
      constructor
      · intro h q hq
        rcases List.mem_cons.mp hq with rfl | hq2
        · exact hk
        · exact h q hq2
      · intro h q hq
        exact h q (List.mem_cons_of_mem _ hq)

theorem aset_fresh {β : Type} (k : List Char) (v : β) (l : List (List Char × β))
    (h : alookup k l = none) : aset k v l = l ++ [(k, v)] := by
  induction l with
  | nil => rfl
  | cons p rest ih =>
    rw [alookup] at h
    rw [aset]
    split at h
    · exact absurd h (by simp)
    · rename_i hk
      rw [if_neg hk, ih h]
      rfl

theorem aremove_sublist {β : Type} (k : List Char) (l : List (List Char × β)) :
    (aremove k l).Sublist l := by
  induction l with
  | nil => exact .refl _
  | cons p rest ih =>
    rw [aremove]
    by_cases hk : p.1 = k
    · rw [if_pos hk]
      exact List.sublist_cons_of_sublist _ (.refl _)
    · rw [if_neg hk]
      exact List.Sublist.cons₂ _ ih

theorem aremove_mem {β : Type} (k : List Char) (l : List (List Char × β))
    (hnodup : (l.map Prod.fst).Nodup) (q : List Char × β) (hq : q ∈ aremove k l) :
    q ∈ l ∧ q.1 ≠ k := by
  induction l with
  | nil => rw [aremove] at hq; exact absurd hq (by simp)
  | cons p rest ih =>
    rw [aremove] at hq
    rw [List.map_cons, List.nodup_cons] at hnodup
    by_cases hk : p.1 = k
    · rw [if_pos hk] at hq
      refine ⟨List.mem_cons_of_mem _ hq, ?_⟩
      intro hqk
      exact hnodup.1 (by rw [hk, ← hqk]; exact List.mem_map_of_mem _ hq)
    · rw [if_neg hk] at hq
      rcases List.mem_cons.mp hq with rfl | hq2
      · exact ⟨List.mem_cons_self _ _, hk⟩
      · obtain ⟨h1, h2⟩ := ih hnodup.2 hq2
        exact ⟨List.mem_cons_of_mem _ h1, h2⟩

theorem alookup_aremove_ne {β : Type} (k k' : List Char) (l : List (List Char × β))
    (hne : k' ≠ k) : alookup k' (aremove k l) = alookup k' l := by
  induction l with
  | nil => rfl
  | cons p rest ih =>
    rw [aremove]
    by_cases hk : p.1 = k
    · rw [if_pos hk, alookup, if_neg (by rw [hk]; exact fun h => hne h.symm)]
    · rw [if_neg hk, alookup, alookup, ih]

theorem alookup_map_val {β γ : Type} (k : List Char) (g : β → γ) (l : List (List Char × β)) :
    alookup k (l.map (fun p => (p.1, g p.2))) = (alookup k l).map g := by
  induction l with
  | nil => rfl
  | cons p rest ih =>
    rw [List.map_cons, alookup, alookup]
    by_cases hk : p.1 = k
    · rw [if_pos hk, if_pos hk]
      rfl
    · rw [if_neg hk, if_neg hk, ih]

theorem map_val_keys {β γ : Type} (g : β → γ) (l : List (List Char × β)) :
    (l.map (fun p => (p.1, g p.2))).map Prod.fst = l.map Prod.fst := by
  rw [List.map_map]
  rfl

def sliceN {α : Type} (xs : List α) (s e : Nat) : List α := (xs.drop s).take (e - s)

theorem sliceL_eq_sliceN (lines : List (List Char)) (s e : Int) (hs : 0 ≤ s) :
    sliceL lines s e = sliceN lines s.toNat e.toNat := by
  unfold sliceL sliceN
  congr 1
  omega

theorem length_splice {α : Type} (xs B : List α) (p : Nat) (hp : p ≤ xs.length) :
    (xs.take p ++ B ++ xs.drop p).length = xs.length + B.length := by
  simp only [List.length_append, List.length_take, List.length_drop]
  omega

theorem length_cut {α : Type} (xs : List α) (s e : Nat) (hs : s ≤ e) (he : e ≤ xs.length) :
    (xs.take s ++ xs.drop e).length = xs.length - (e - s) := by
  simp only [List.length_append, List.length_take, List.length_drop]
  omega

theorem sliceN_splice_low {α : Type} (xs B : List α) (p a b : Nat) (hb : b ≤ p)
    (hp : p ≤ xs.length) :
    sliceN (xs.take p ++ B ++ xs.drop p) a b = sliceN xs a b := by
  unfold sliceN
  rw [List.append_assoc, List.drop_append_eq_append_drop, List.take_append_eq_append_take]
  have h1 : ((xs.take p).drop a).length = p - a := by
    simp only [List.length_drop, List.length_take]
    omega
  rw [h1, show b - a - (p - a) = 0 by omega, List.take_zero, List.append_nil,
    List.drop_take, List.take_take, show min (b - a) (p - a) = b - a by omega]

theorem sliceN_splice_high {α : Type} (xs B : List α) (p a b : Nat) (ha : p ≤ a)
    (hp : p ≤ xs.length) :
    sliceN (xs.take p ++ B ++ xs.drop p) (a + B.length) (b + B.length) = sliceN xs a b := by
  unfold sliceN
  rw [List.append_assoc, List.drop_append_eq_append_drop,
    List.drop_eq_nil_of_le (by simp only [List.length_take]; omega), List.nil_append,
    List.drop_append_eq_append_drop,
    List.drop_eq_nil_of_le (by simp only [List.length_take]; omega), List.nil_append,
    List.drop_drop]
  rw [show b + B.length - (a + B.length) = b - a by omega, List.length_take_of_le hp,
    show p + (a + B.length - p - B.length) = a by omega]

theorem sliceN_splice_self {α : Type} (xs B : List α) (p : Nat) (hp : p ≤ xs.length) :
    sliceN (xs.take p ++ B ++ xs.drop p) p (p + B.length) = B := by
  unfold sliceN
  rw [List.append_assoc, List.drop_append_eq_append_drop,
    List.drop_eq_nil_of_le (by simp only [List.length_take]; omega), List.nil_append,
    show p - (xs.take p).length = 0 by simp only [List.length_take]; omega, List.drop_zero,
    show p + B.length - p = B.length by omega, List.take_append_eq_append_take,
    List.take_length, show B.length - B.length = 0 by omega, List.take_zero, List.append_nil]

theorem sliceN_cut_low {α : Type} (xs : List α) (s e a b : Nat) (hb : b ≤ s)
    (hs : s ≤ xs.length) :
    sliceN (xs.take s ++ xs.drop e) a b = sliceN xs a b := by
  unfold sliceN
  rw [List.drop_append_eq_append_drop, List.take_append_eq_append_take]
  have h1 : ((xs.take s).drop a).length = s - a := by
    simp only [List.length_drop, List.length_take]
    omega
  rw [h1, show b - a - (s - a) = 0 by omega, List.take_zero, List.append_nil,
    List.drop_take, List.take_take, show min (b - a) (s - a) = b - a by omega]

theorem sliceN_cut_high {α : Type} (xs : List α) (s e a b : Nat) (ha : e ≤ a) (hse : s ≤ e)
    (he : e ≤ xs.length) :
    sliceN (xs.take s ++ xs.drop e) (a - (e - s)) (b - (e - s)) = sliceN xs a b := by
  unfold sliceN
  rw [List.drop_append_eq_append_drop,
    List.drop_eq_nil_of_le (by simp only [List.length_take]; omega), List.nil_append,
    List.drop_drop]
  rw [show b - (e - s) - (a - (e - s)) = b - a by omega,
    List.length_take_of_le (show s ≤ xs.length by omega),
    show e + (a - (e - s) - s) = a by omega]

theorem getD_splice_low {α : Type} (xs B : List α) (p a : Nat) (d : α) (ha : a < p)
    (hp : p ≤ xs.length) :
    (xs.take p ++ B ++ xs.drop p).getD a d = xs.getD a d := by
  rw [List.append_assoc, List.getD_append _ _ _ _ (by simp only [List.length_take]; omega),
    List.getD_eq_getElem?_getD, List.getD_eq_getElem?_getD, List.getElem?_take, if_pos ha]

theorem getD_splice_high {α : Type} (xs B : List α) (p a : Nat) (d : α) (ha : p ≤ a)
    (hp : p ≤ xs.length) :
    (xs.take p ++ B ++ xs.drop p).getD (a + B.length) d = xs.getD a d := by
  rw [List.append_assoc, List.getD_append_right _ _ _ _ (by simp only [List.length_take]; omega),
    List.getD_append_right _ _ _ _ (by simp only [List.length_take]; omega)]
  rw [List.getD_eq_getElem?_getD, List.getD_eq_getElem?_getD, List.getElem?_drop,
    List.length_take_of_le hp, show p + (a + B.length - p - B.length) = a by omega]

theorem getD_cut_low {α : Type} (xs : List α) (s e a : Nat) (d : α) (ha : a < s)
    (hs : s ≤ xs.length) :
    (xs.take s ++ xs.drop e).getD a d = xs.getD a d := by
  rw [List.getD_append _ _ _ _ (by simp only [List.length_take]; omega),
    List.getD_eq_getElem?_getD, List.getD_eq_getElem?_getD, List.getElem?_take, if_pos ha]

theorem getD_cut_high {α : Type} (xs : List α) (s e a : Nat) (d : α) (ha : e ≤ a) (hse : s ≤ e)
    (he : e ≤ xs.length) :
    (xs.take s ++ xs.drop e).getD (a - (e - s)) d = xs.getD a d := by
  rw [List.getD_append_right _ _ _ _ (by simp only [List.length_take]; omega)]
  rw [List.getD_eq_getElem?_getD, List.getD_eq_getElem?_getD, List.getElem?_drop,
    List.length_take_of_le (show s ≤ xs.length by omega),
    show e + (a - (e - s) - s) = a by omega]

/-! ## The offset invariant (C2) -/

/-- Structural invariant of the stored jars relative to a line buffer:
jars are stored under their own name, names are unique, every range is a
valid nonempty slice, ranges are pairwise disjoint, and every start line
begins with the marker prefix. -/
structure JarsInv (lines : List (List Char)) (jars : List (List Char × Jar)) : Prop where
  key : ∀ p ∈ jars, p.2.name = p.1
  nodup : (jars.map Prod.fst).Nodup
  valid : ∀ p ∈ jars, 0 ≤ p.2.start ∧ p.2.start < p.2.stop ∧ p.2.stop ≤ (lines.length : Int)
  disj : jars.Pairwise (fun p q => JarDisj p.2 q.2)
  headMark : ∀ p ∈ jars, (s2l "# spyce:").isPrefixOf (lineAt lines p.2.start) = true

/-- The document part of the C2 induction invariant: structural jar
invariant and no recorded section anchors. -/
structure SCore (st : SFile) : Prop where
  jars : JarsInv st.lines st.jars
  secS : st.secSource = none
  secD : st.secData = none

/-- One tracked name is backed by a jar whose full slice is exactly its
serialized block. -/
def TrOk (st : SFile) (q : List Char × SpyceV) : Prop :=
  q.2.name = q.1
  ∧ ∃ j, alookup q.1 st.jars = some j
    ∧ j.stop = j.start + ((mkBlock q.2).length : Int)
    ∧ sliceL st.lines j.start j.stop = mkBlock q.2

/-- The full induction invariant for C2. -/
structure SInv (st : SFile) (tr : List (List Char × SpyceV)) : Prop where
  core : SCore st
  trNodup : (tr.map Prod.fst).Nodup
  trOk : ∀ q ∈ tr, TrOk st q

theorem shiftJar_name (lStart lDiff : Int) (j : Jar) : (shiftJar lStart lDiff j).name = j.name := by
  unfold shiftJar
  split <;> rfl

theorem jarDisj_symm (j k : Jar) (h : JarDisj j k) : JarDisj k j := h.symm

theorem alookup_aremove_self {β : Type} (k : List Char) (l : List (List Char × β))
    (hnodup : (l.map Prod.fst).Nodup) : alookup k (aremove k l) = none := by
  induction l with
  | nil => rfl
  | cons p rest ih =>
    rw [List.map_cons, List.nodup_cons] at hnodup
    rw [aremove]
    by_cases hk : p.1 = k
    · rw [if_pos hk]
      rw [alookup_none_iff]
      intro q hq hqk
      exact hnodup.1 (by rw [hk, ← hqk]; exact List.mem_map_of_mem _ hq)
    · rw [if_neg hk, alookup, if_neg hk]
      exact ih hnodup.2

theorem mem_keys_aset {β : Type} (k x : List Char) (v : β) (l : List (List Char × β))
    (hx : x ∈ (aset k v l).map Prod.fst) : x ∈ l.map Prod.fst ∨ x = k := by
  induction l with
  | nil =>
    rw [aset] at hx
    simp at hx
    exact Or.inr hx
  | cons p rest ih =>
    rw [aset] at hx
    by_cases hk : p.1 = k
    · rw [if_pos hk, List.map_cons] at hx
      rcases List.mem_cons.mp hx with h1 | h1
      · exact Or.inr h1
      · rw [List.map_cons]
        exact Or.inl (List.mem_cons_of_mem _ h1)
    · rw [if_neg hk, List.map_cons] at hx
      rcases List.mem_cons.mp hx with h1 | h1
      · rw [List.map_cons, h1]
        exact Or.inl (List.mem_cons_self _ _)
      · rcases ih h1 with h2 | h2
        · rw [List.map_cons]
          exact Or.inl (List.mem_cons_of_mem _ h2)
        · exact Or.inr h2

theorem aset_keys_nodup {β : Type} (k : List Char) (v : β) (l : List (List Char × β))
    (hnodup : (l.map Prod.fst).Nodup) : ((aset k v l).map Prod.fst).Nodup := by
  induction l with
  | nil => simp [aset]
  | cons p rest ih =>
    rw [List.map_cons, List.nodup_cons] at hnodup
    rw [aset]
    by_cases hk : p.1 = k
    · rw [if_pos hk, List.map_cons, List.nodup_cons]
      exact ⟨by rw [← hk]; exact hnodup.1, hnodup.2⟩
    · rw [if_neg hk, List.map_cons, List.nodup_cons]
      refine ⟨?_, ih hnodup.2⟩
      intro hmem
      rcases mem_keys_aset k p.1 v rest hmem with h1 | h1
      · exact hnodup.1 h1
      · exact hk h1

theorem mem_aset {β : Type} (k : List Char) (v : β) (l : List (List Char × β))
    (hnodup : (l.map Prod.fst).Nodup) (q : List Char × β) (hq : q ∈ aset k v l) :
    q = (k, v) ∨ (q ∈ l ∧ q.1 ≠ k) := by
  induction l with
  | nil =>
    rw [aset] at hq
    rcases List.mem_cons.mp hq with rfl | h1
    · exact Or.inl rfl
    · exact absurd h1 (by simp)
  | cons p rest ih =>
    rw [List.map_cons, List.nodup_cons] at hnodup
    rw [aset] at hq
    by_cases hk : p.1 = k
    · rw [if_pos hk] at hq
      rcases List.mem_cons.mp hq with rfl | hq2
      · exact Or.inl rfl
      · refine Or.inr ⟨List.mem_cons_of_mem _ hq2, ?_⟩
        intro hqk
        exact hnodup.1 (by rw [hk, ← hqk]; exact List.mem_map_of_mem _ hq2)
    · rw [if_neg hk] at hq
      rcases List.mem_cons.mp hq with rfl | hq2
      · exact Or.inr ⟨List.mem_cons_self _ _, hk⟩
      · rcases ih hnodup.2 hq2 with h1 | ⟨h1, h2⟩
        · exact Or.inl h1
        · exact Or.inr ⟨List.mem_cons_of_mem _ h1, h2⟩

theorem mkBlock_length (sv : SpyceV) :
    (mkBlock sv).length = 2 + sv.conf.length + (encodeContent sv).length := by
  unfold mkBlock
  rw [List.length_cons, List.length_append, List.length_append, List.length_map,
    show ∀ x : List Char, [x].length = 1 from fun x => rfl]
  omega

theorem mkBlock_head_pfx (sv : SpyceV) :
    (s2l "# spyce:").isPrefixOf ((mkBlock sv).getD 0 []) = true := by
  unfold mkBlock
  rw [List.getD_cons_zero]
  rw [show s2l "# spyce: start " = s2l "# spyce:" ++ s2l " start " from rfl, List.append_assoc]
  simp [List.isPrefixOf_iff_prefix, List.prefix_append]

theorem delItem_eq (st : SFile) (n : List Char) (st' : SFile) (h : delItem st n = some st') :
    ∃ j, alookup n st.jars = some j
      ∧ st' = { lines := cutLines st.lines j.start j.stop,
                jars := (aremove n st.jars).map
                  (fun p => (p.1, shiftJar j.start (-(j.stop - j.start)) p.2)),
                secSource := st.secSource.map (fun m =>
                  if m > j.start then m + (-(j.stop - j.start)) else m),
                secData := st.secData.map (fun m =>
                  if m > j.start then m + (-(j.stop - j.start)) else m),
                contentVersion := st.contentVersion + 1 } := by
  unfold delItem at h
  obtain ⟨j, ha⟩ : ∃ j, alookup n st.jars = some j := by
    cases ha : alookup n st.jars with
    | none => rw [ha] at h; exact absurd h (by simp)
    | some j => exact ⟨j, rfl⟩
  rw [ha] at h
  dsimp only at h
  injection h with h2
  exact ⟨j, ha, h2.symm⟩

theorem delItem_dich (st : SFile) (n : List Char) (j : Jar) (hcore : SCore st)
    (ha : alookup n st.jars = some j) :
    ∀ q ∈ aremove n st.jars,
      q ∈ st.jars ∧ q.1 ≠ n ∧ (q.2.stop ≤ j.start ∨ j.stop ≤ q.2.start) := by
  intro q hq
  obtain ⟨hq1, hq2⟩ := aremove_mem n st.jars hcore.jars.nodup q hq
  refine ⟨hq1, hq2, ?_⟩
  have hmem : (n, j) ∈ st.jars := alookup_mem _ _ _ ha
  have hne : (n, j) ≠ q := by
    intro heq
    exact hq2 (by rw [← heq])
  have hd := List.Pairwise.forall (fun a b hab => Or.symm hab) hcore.jars.disj hmem hq1 hne
  exact Or.symm hd

theorem delItem_core (st : SFile) (n : List Char) (st' : SFile)
    (hcore : SCore st) (h : delItem st n = some st') : SCore st' := by
  obtain ⟨j, ha, rfl⟩ := delItem_eq st n st' h
  have hmem : (n, j) ∈ st.jars := alookup_mem _ _ _ ha
  obtain ⟨hs0, hse, hel⟩ := hcore.jars.valid _ hmem
  replace hs0 : (0 : Int) ≤ j.start := hs0
  replace hse : j.start < j.stop := hse
  replace hel : j.stop ≤ (st.lines.length : Int) := hel
  have hdich := delItem_dich st n j hcore ha
  have hlen' : ((cutLines st.lines j.start j.stop).length : Int)
      = (st.lines.length : Int) - (j.stop - j.start) := by
    unfold cutLines
    rw [length_cut st.lines j.start.toNat j.stop.toNat (by omega) (by omega)]
    omega
  refine ⟨⟨?_, ?_, ?_, ?_, ?_⟩, ?_, ?_⟩
  · intro p hp
    rw [List.mem_map] at hp
    obtain ⟨q, hq, rfl⟩ := hp
    dsimp only
    rw [shiftJar_name]
    exact hcore.jars.key q (hdich q hq).1
  · rw [map_val_keys]
    exact hcore.jars.nodup.sublist (List.Sublist.map _ (aremove_sublist n st.jars))
  · intro p hp
    rw [List.mem_map] at hp
    obtain ⟨q, hq, rfl⟩ := hp
    obtain ⟨hq1, hq2, hq3⟩ := hdich q hq
    obtain ⟨h1, h2, h3⟩ := hcore.jars.valid q hq1
    dsimp only
    rw [hlen']
    unfold shiftJar
    rcases hq3 with h4 | h4 <;> split <;> rename_i hcond <;> (try dsimp only) <;>
      refine ⟨by omega, by omega, by omega⟩
  · rw [List.pairwise_map]
    have hpw : (aremove n st.jars).Pairwise (fun p q => JarDisj p.2 q.2) :=
      hcore.jars.disj.sublist (aremove_sublist n st.jars)
    refine hpw.imp_of_mem ?_
    intro a b hma hmb hab
    obtain ⟨ha1, ha2, ha3⟩ := hdich a hma
    obtain ⟨hb1, hb2, hb3⟩ := hdich b hmb
    obtain ⟨ha4, ha5, ha6⟩ := hcore.jars.valid a ha1
    obtain ⟨hb4, hb5, hb6⟩ := hcore.jars.valid b hb1
    dsimp only
    unfold shiftJar JarDisj at hab ⊢
    rcases hab with hab | hab <;> rcases ha3 with ha7 | ha7 <;> rcases hb3 with hb7 | hb7 <;>
      split <;> rename_i hca <;> split <;> rename_i hcb <;> (try dsimp only) <;> omega
  · intro p hp
    rw [List.mem_map] at hp
    obtain ⟨q, hq, rfl⟩ := hp
    obtain ⟨hq1, hq2, hq3⟩ := hdich q hq
    obtain ⟨h1, h2, h3⟩ := hcore.jars.valid q hq1
    have hh := hcore.jars.headMark q hq1
    dsimp only
    unfold shiftJar
    split
    · rename_i hcond
      have he : j.stop ≤ q.2.start := by
        rcases hq3 with h4 | h4
        · exfalso; omega
        · exact h4
      show (s2l "# spyce:").isPrefixOf
        (lineAt (cutLines st.lines j.start j.stop) (q.2.start + -(j.stop - j.start))) = true
      unfold lineAt cutLines
      rw [show (q.2.start + -(j.stop - j.start)).toNat
          = q.2.start.toNat - (j.stop.toNat - j.start.toNat) by omega,
        getD_cut_high st.lines j.start.toNat j.stop.toNat q.2.start.toNat [] (by omega)
          (by omega) (by omega)]
      exact hh
    · rename_i hcond
      have hlt : q.2.stop ≤ j.start := by
        rcases hq3 with h4 | h4
        · exact h4
        · exfalso; omega
      show (s2l "# spyce:").isPrefixOf
        (lineAt (cutLines st.lines j.start j.stop) q.2.start) = true
      unfold lineAt cutLines
      rw [getD_cut_low st.lines j.start.toNat j.stop.toNat q.2.start.toNat [] (by omega)
        (by omega)]
      exact hh
  · have hres : st.secSource.map
        (fun m => if m > j.start then m + (-(j.stop - j.start)) else m) = none := by
      rw [hcore.secS]
      rfl
    exact hres
  · have hres : st.secData.map
        (fun m => if m > j.start then m + (-(j.stop - j.start)) else m) = none := by
      rw [hcore.secD]
      rfl
    exact hres

theorem cutLines_length (lines : List (List Char)) (s e : Int) (h0 : 0 ≤ s) (hse : s ≤ e)
    (he : e ≤ (lines.length : Int)) :
    ((cutLines lines s e).length : Int) = (lines.length : Int) - (e - s) := by
  unfold cutLines
  rw [length_cut lines s.toNat e.toNat (by omega) (by omega)]
  omega

theorem delItem_trok (st : SFile) (n : List Char) (st' : SFile) (q : List Char × SpyceV)
    (hcore : SCore st) (h : delItem st n = some st') (hqn : q.1 ≠ n)
    (ht : TrOk st q) : TrOk st' q := by
  obtain ⟨j, ha, rfl⟩ := delItem_eq st n st' h
  have hmem : (n, j) ∈ st.jars := alookup_mem _ _ _ ha
  obtain ⟨hs0, hse, hel⟩ := hcore.jars.valid _ hmem
  replace hs0 : (0 : Int) ≤ j.start := hs0
  replace hse : j.start < j.stop := hse
  replace hel : j.stop ≤ (st.lines.length : Int) := hel
  obtain ⟨hname, j', hlook, hstop, hslice⟩ := ht
  have hmem' : (q.1, j') ∈ st.jars := alookup_mem _ _ _ hlook
  obtain ⟨ha0, hae, hal⟩ := hcore.jars.valid _ hmem'
  replace ha0 : (0 : Int) ≤ j'.start := ha0
  replace hae : j'.start < j'.stop := hae
  replace hal : j'.stop ≤ (st.lines.length : Int) := hal
  have hne : (n, j) ≠ (q.1, j') := fun heq => hqn ((congrArg Prod.fst heq).symm)
  have hd := List.Pairwise.forall (fun a b hab => Or.symm hab) hcore.jars.disj hmem hmem' hne
  replace hd : j.stop ≤ j'.start ∨ j'.stop ≤ j.start := hd
  have hlook' : alookup q.1 ((aremove n st.jars).map
      (fun p => (p.1, shiftJar j.start (-(j.stop - j.start)) p.2)))
      = some (shiftJar j.start (-(j.stop - j.start)) j') := by
    rw [alookup_map_val, alookup_aremove_ne n q.1 _ hqn, hlook]
    rfl
  refine ⟨hname, shiftJar j.start (-(j.stop - j.start)) j', hlook', ?_, ?_⟩
  · unfold shiftJar
    split <;> (try dsimp only) <;> omega
  · rcases hd with hd1 | hd1
    · have hcond : j'.start ≥ j.start := by omega
      show sliceL (cutLines st.lines j.start j.stop)
        (shiftJar j.start (-(j.stop - j.start)) j').start
        (shiftJar j.start (-(j.stop - j.start)) j').stop = mkBlock q.2
      unfold shiftJar
      rw [if_pos hcond]
      dsimp only
      rw [sliceL_eq_sliceN _ _ _ (by omega)]
      unfold cutLines
      rw [show (j'.start + -(j.stop - j.start)).toNat
          = j'.start.toNat - (j.stop.toNat - j.start.toNat) by omega,
        show (j'.stop + -(j.stop - j.start)).toNat
          = j'.stop.toNat - (j.stop.toNat - j.start.toNat) by omega,
        sliceN_cut_high st.lines j.start.toNat j.stop.toNat j'.start.toNat j'.stop.toNat
          (by omega) (by omega) (by omega),
        ← sliceL_eq_sliceN st.lines j'.start j'.stop ha0]
      exact hslice
    · have hcond : ¬ (j'.start ≥ j.start) := by omega
      show sliceL (cutLines st.lines j.start j.stop)
        (shiftJar j.start (-(j.stop - j.start)) j').start
        (shiftJar j.start (-(j.stop - j.start)) j').stop = mkBlock q.2
      unfold shiftJar
      rw [if_neg hcond]
      rw [sliceL_eq_sliceN _ _ _ ha0]
      unfold cutLines
      rw [sliceN_cut_low st.lines j.start.toNat j.stop.toNat j'.start.toNat j'.stop.toNat
          (by omega) (by omega),
        ← sliceL_eq_sliceN st.lines j'.start j'.stop ha0]
      exact hslice

theorem delItem_free (st : SFile) (n : List Char) (st' : SFile)
    (hcore : SCore st) (h : delItem st n = some st') :
    ∃ j, alookup n st.jars = some j
      ∧ alookup n st'.jars = none
      ∧ (∀ q ∈ st'.jars, q.2.stop ≤ j.start ∨ j.start ≤ q.2.start)
      ∧ 0 ≤ j.start ∧ j.start ≤ (st'.lines.length : Int) := by
  obtain ⟨j, ha, rfl⟩ := delItem_eq st n st' h
  have hmem : (n, j) ∈ st.jars := alookup_mem _ _ _ ha
  obtain ⟨hs0, hse, hel⟩ := hcore.jars.valid _ hmem
  replace hs0 : (0 : Int) ≤ j.start := hs0
  replace hse : j.start < j.stop := hse
  replace hel : j.stop ≤ (st.lines.length : Int) := hel
  have hdich := delItem_dich st n j hcore ha
  refine ⟨j, ha, ?_, ?_, hs0, ?_⟩
  · show alookup n ((aremove n st.jars).map
      (fun p => (p.1, shiftJar j.start (-(j.stop - j.start)) p.2))) = none
    rw [alookup_map_val, alookup_aremove_self n st.jars hcore.jars.nodup]
    rfl
  · intro q hq
    replace hq : q ∈ (aremove n st.jars).map
        (fun p => (p.1, shiftJar j.start (-(j.stop - j.start)) p.2)) := hq
    rw [List.mem_map] at hq
    obtain ⟨p, hp, rfl⟩ := hq
    obtain ⟨hp1, hp2, hp3⟩ := hdich p hp
    obtain ⟨h1, h2, h3⟩ := hcore.jars.valid p hp1
    dsimp only
    unfold shiftJar
    rcases hp3 with h4 | h4 <;> split <;> (try dsimp only) <;> omega
  · show j.start ≤ ((cutLines st.lines j.start j.stop).length : Int)
    rw [cutLines_length st.lines j.start j.stop hs0 (by omega) hel]
    omega

/-- The jar record stored for a freshly spliced block. -/
def newJar (sv : SpyceV) (p : Int) : Jar :=
  ⟨sv.sec, sv.name, sv.ty, p, p + ((mkBlock sv).length : Int), 0⟩

theorem insertBlock_jars (st : SFile) (sv : SpyceV) (p : Int) :
    (insertBlock st sv p).jars
      = aset sv.name (newJar sv p)
          (st.jars.map (fun q => (q.1, shiftJar p ((mkBlock sv).length : Int) q.2))) := rfl

theorem insertBlock_lines (st : SFile) (sv : SpyceV) (p : Int) :
    (insertBlock st sv p).lines = spliceLines st.lines p (mkBlock sv) := rfl

theorem getD_splice_self {α : Type} (xs B : List α) (p a : Nat) (d : α) (ha : a < B.length)
    (hp : p ≤ xs.length) :
    (xs.take p ++ B ++ xs.drop p).getD (p + a) d = B.getD a d := by
  rw [List.append_assoc,
    List.getD_append_right _ _ _ _ (by simp only [List.length_take]; omega),
    List.length_take_of_le hp, show p + a - p = a by omega,
    List.getD_append _ _ _ _ ha]

theorem mkBlock_length_pos (sv : SpyceV) : 0 < (mkBlock sv).length := by
  rw [mkBlock_length]
  omega

theorem spliceLines_length (lines B : List (List Char)) (p : Int) (h0 : 0 ≤ p)
    (hp : p ≤ (lines.length : Int)) :
    ((spliceLines lines p B).length : Int) = (lines.length : Int) + (B.length : Int) := by
  unfold spliceLines
  rw [length_splice lines B p.toNat (by omega)]
  omega

theorem insertBlock_mem (st : SFile) (sv : SpyceV) (p : Int)
    (hnodup : (st.jars.map Prod.fst).Nodup)
    (q : List Char × Jar) (hq : q ∈ (insertBlock st sv p).jars) :
    q = (sv.name, newJar sv p)
      ∨ ∃ r, r ∈ st.jars ∧ q = (r.1, shiftJar p ((mkBlock sv).length : Int) r.2) ∧
          q.1 ≠ sv.name := by
  rw [insertBlock_jars] at hq
  have hkeys : ((st.jars.map
      (fun r => (r.1, shiftJar p ((mkBlock sv).length : Int) r.2))).map Prod.fst).Nodup := by
    rw [map_val_keys]
    exact hnodup
  rcases mem_aset _ _ _ hkeys q hq with h1 | ⟨h1, h2⟩
  · exact Or.inl h1
  · rw [List.mem_map] at h1
    obtain ⟨r, hr, hqe⟩ := h1
    exact Or.inr ⟨r, hr, hqe.symm, h2⟩

theorem shiftJar_cases (lStart lDiff : Int) (j : Jar) :
    ((shiftJar lStart lDiff j).start = j.start + lDiff
        ∧ (shiftJar lStart lDiff j).stop = j.stop + lDiff ∧ j.start ≥ lStart)
      ∨ ((shiftJar lStart lDiff j).start = j.start
        ∧ (shiftJar lStart lDiff j).stop = j.stop ∧ ¬ j.start ≥ lStart) := by
  unfold shiftJar
  split
  · exact Or.inl ⟨rfl, rfl, by assumption⟩
  · exact Or.inr ⟨rfl, rfl, by assumption⟩

theorem insertBlock_core (st : SFile) (sv : SpyceV) (p : Int)
    (hcore : SCore st) (hp0 : 0 ≤ p) (hpl : p ≤ (st.lines.length : Int))
    (hfree : ∀ q ∈ st.jars, q.2.stop ≤ p ∨ p ≤ q.2.start)
    (hnew : alookup sv.name st.jars = none) :
    SCore (insertBlock st sv p) := by
  have hL : (0 : Int) < ((mkBlock sv).length : Int) := by
    have := mkBlock_length_pos sv
    omega
  have hlen' : (((insertBlock st sv p).lines).length : Int)
      = (st.lines.length : Int) + ((mkBlock sv).length : Int) := by
    rw [insertBlock_lines]
    exact spliceLines_length st.lines (mkBlock sv) p hp0 hpl
  refine ⟨⟨?_, ?_, ?_, ?_, ?_⟩, ?_, ?_⟩
  · intro q hq
    rcases insertBlock_mem st sv p hcore.jars.nodup q hq with rfl | ⟨r, hr, rfl, hne⟩
    · rfl
    · dsimp only
      rw [shiftJar_name]
      exact hcore.jars.key r hr
  · rw [insertBlock_jars]
    apply aset_keys_nodup
    rw [map_val_keys]
    exact hcore.jars.nodup
  · intro q hq
    rw [hlen']
    rcases insertBlock_mem st sv p hcore.jars.nodup q hq with rfl | ⟨r, hr, rfl, hne⟩
    · refine ⟨hp0, by dsimp only [newJar]; omega, by dsimp only [newJar]; omega⟩
    · obtain ⟨h1, h2, h3⟩ := hcore.jars.valid r hr
      dsimp only
      rcases shiftJar_cases p ((mkBlock sv).length : Int) r.2 with ⟨e1, e2, hc⟩ | ⟨e1, e2, hc⟩ <;>
        rcases hfree r hr with h4 | h4 <;> refine ⟨by omega, by omega, by omega⟩
  · rw [insertBlock_jars,
      aset_fresh sv.name (newJar sv p) _ (by rw [alookup_map_val, hnew]; rfl)]
    rw [List.pairwise_append]
    refine ⟨?_, List.pairwise_singleton _ _, ?_⟩
    · rw [List.pairwise_map]
      refine hcore.jars.disj.imp_of_mem ?_
      intro a b hma hmb hab
      obtain ⟨ha1, ha2, ha3⟩ := hcore.jars.valid a hma
      obtain ⟨hb1, hb2, hb3⟩ := hcore.jars.valid b hmb
      unfold JarDisj at hab ⊢
      dsimp only
      rcases shiftJar_cases p ((mkBlock sv).length : Int) a.2 with ⟨e1, e2, hc⟩ | ⟨e1, e2, hc⟩ <;>
        rcases shiftJar_cases p ((mkBlock sv).length : Int) b.2 with
          ⟨f1, f2, hd⟩ | ⟨f1, f2, hd⟩ <;>
        rcases hab with hab | hab <;>
        rcases hfree a hma with ha4 | ha4 <;> rcases hfree b hmb with hb4 | hb4 <;> omega
    · intro a hma b hmb
      rw [List.mem_map] at hma
      obtain ⟨r, hr, rfl⟩ := hma
      rw [List.mem_singleton] at hmb
      subst hmb
      obtain ⟨h1, h2, h3⟩ := hcore.jars.valid r hr
      unfold JarDisj newJar
      dsimp only
      rcases shiftJar_cases p ((mkBlock sv).length : Int) r.2 with ⟨e1, e2, hc⟩ | ⟨e1, e2, hc⟩ <;>
        rcases hfree r hr with h4 | h4 <;> omega
  · intro q hq
    rcases insertBlock_mem st sv p hcore.jars.nodup q hq with rfl | ⟨r, hr, rfl, hne⟩
    · show (s2l "# spyce:").isPrefixOf
        (lineAt (spliceLines st.lines p (mkBlock sv)) (newJar sv p).start) = true
      unfold lineAt spliceLines newJar
      dsimp only
      have hself := getD_splice_self st.lines (mkBlock sv) p.toNat 0 []
        (mkBlock_length_pos sv) (by omega)
      rw [Nat.add_zero] at hself
      rw [hself]
      exact mkBlock_head_pfx sv
    · obtain ⟨h1, h2, h3⟩ := hcore.jars.valid r hr
      have hh := hcore.jars.headMark r hr
      show (s2l "# spyce:").isPrefixOf
        (lineAt (spliceLines st.lines p (mkBlock sv))
          (shiftJar p ((mkBlock sv).length : Int) r.2).start) = true
      unfold lineAt spliceLines
      rcases shiftJar_cases p ((mkBlock sv).length : Int) r.2 with ⟨e1, e2, hc⟩ | ⟨e1, e2, hc⟩
      · rw [e1, show (r.2.start + ((mkBlock sv).length : Int)).toNat
            = r.2.start.toNat + (mkBlock sv).length by omega,
          getD_splice_high st.lines (mkBlock sv) p.toNat r.2.start.toNat [] (by omega)
            (by omega)]
        exact hh
      · rcases hfree r hr with h4 | h4
        · rw [e1, getD_splice_low st.lines (mkBlock sv) p.toNat r.2.start.toNat [] (by omega)
            (by omega)]
          exact hh
        · exfalso
          omega
  · have hres : st.secSource.map
        (fun m => if m > p then m + ((mkBlock sv).length : Int) else m) = none := by
      rw [hcore.secS]
      rfl
    exact hres
  · have hres : st.secData.map
        (fun m => if m > p then m + ((mkBlock sv).length : Int) else m) = none := by
      rw [hcore.secD]
      rfl
    exact hres

theorem insertBlock_trok (st : SFile) (sv : SpyceV) (p : Int) (q : List Char × SpyceV)
    (hcore : SCore st) (hp0 : 0 ≤ p) (hpl : p ≤ (st.lines.length : Int))
    (hfree : ∀ r ∈ st.jars, r.2.stop ≤ p ∨ p ≤ r.2.start)
    (hqn : q.1 ≠ sv.name) (ht : TrOk st q) : TrOk (insertBlock st sv p) q := by
  obtain ⟨hname, j', hlook, hstop, hslice⟩ := ht
  have hmem' : (q.1, j') ∈ st.jars := alookup_mem _ _ _ hlook
  obtain ⟨ha0, hae, hal⟩ := hcore.jars.valid _ hmem'
  replace ha0 : (0 : Int) ≤ j'.start := ha0
  replace hae : j'.start < j'.stop := hae
  replace hal : j'.stop ≤ (st.lines.length : Int) := hal
  have hfr := hfree _ hmem'
  replace hfr : j'.stop ≤ p ∨ p ≤ j'.start := hfr
  have hlook' : alookup q.1 (insertBlock st sv p).jars
      = some (shiftJar p ((mkBlock sv).length : Int) j') := by
    rw [insertBlock_jars, alookup_aset_ne sv.name q.1 _ _ hqn, alookup_map_val, hlook]
    rfl
  refine ⟨hname, shiftJar p ((mkBlock sv).length : Int) j', hlook', ?_, ?_⟩
  · rcases shiftJar_cases p ((mkBlock sv).length : Int) j' with ⟨e1, e2, hc⟩ | ⟨e1, e2, hc⟩ <;>
      omega
  · show sliceL (spliceLines st.lines p (mkBlock sv))
      (shiftJar p ((mkBlock sv).length : Int) j').start
      (shiftJar p ((mkBlock sv).length : Int) j').stop = mkBlock q.2
    rcases shiftJar_cases p ((mkBlock sv).length : Int) j' with ⟨e1, e2, hc⟩ | ⟨e1, e2, hc⟩
    · rw [e1, e2, sliceL_eq_sliceN _ _ _ (by omega)]
      unfold spliceLines
      rw [show (j'.start + ((mkBlock sv).length : Int)).toNat
          = j'.start.toNat + (mkBlock sv).length by omega,
        show (j'.stop + ((mkBlock sv).length : Int)).toNat
          = j'.stop.toNat + (mkBlock sv).length by omega,
        sliceN_splice_high st.lines (mkBlock sv) p.toNat j'.start.toNat j'.stop.toNat
          (by omega) (by omega),
        ← sliceL_eq_sliceN st.lines j'.start j'.stop ha0]
      exact hslice
    · have h4 : j'.stop ≤ p := by omega
      rw [e1, e2, sliceL_eq_sliceN _ _ _ ha0]
      unfold spliceLines
      rw [sliceN_splice_low st.lines (mkBlock sv) p.toNat j'.start.toNat j'.stop.toNat
          (by omega) (by omega),
        ← sliceL_eq_sliceN st.lines j'.start j'.stop ha0]
      exact hslice

theorem insertBlock_trok_new (st : SFile) (sv : SpyceV) (p : Int)
    (hp0 : 0 ≤ p) (hpl : p ≤ (st.lines.length : Int)) :
    TrOk (insertBlock st sv p) (sv.name, sv) := by
  refine ⟨rfl, newJar sv p, ?_, ?_, ?_⟩
  · rw [insertBlock_jars]
    exact alookup_aset_self _ _ _
  · rfl
  · show sliceL (spliceLines st.lines p (mkBlock sv)) (newJar sv p).start
      (newJar sv p).stop = mkBlock sv
    unfold newJar
    dsimp only
    rw [sliceL_eq_sliceN _ _ _ hp0]
    unfold spliceLines
    rw [show (p + ((mkBlock sv).length : Int)).toNat = p.toNat + (mkBlock sv).length by omega,
      sliceN_splice_self st.lines (mkBlock sv) p.toNat (by omega)]

theorem foldl_max_spec (es : List Int) :
    ∀ a : Int, (es.foldl max a = a ∨ es.foldl max a ∈ es)
      ∧ a ≤ es.foldl max a ∧ ∀ x ∈ es, x ≤ es.foldl max a := by
  induction es with
  | nil =>
    intro a
    exact ⟨Or.inl rfl, le_refl a, by intro x hx; exact absurd hx (by simp)⟩
  | cons b bs ih =>
    intro a
    rw [List.foldl_cons]
    obtain ⟨hm, hle, hall⟩ := ih (max a b)
    refine ⟨?_, le_trans (le_max_left a b) hle, ?_⟩
    · rcases hm with hm | hm
      · rcases max_choice a b with hc | hc
        · exact Or.inl (by rw [hm, hc])
        · exact Or.inr (by rw [hm, hc]; exact List.mem_cons_self _ _)
      · exact Or.inr (List.mem_cons_of_mem _ hm)
    · intro x hx
      rcases List.mem_cons.mp hx with rfl | hx
      · exact le_trans (le_max_right a x) hle
      · exact hall x hx

theorem maxEnds_spec (l : List Int) (e : Int) (h : maxEnds l = some e) :
    e ∈ l ∧ ∀ x ∈ l, x ≤ e := by
  cases l with
  | nil => exact Option.noConfusion h
  | cons a es =>
    rw [maxEnds] at h
    injection h with h
    subst h
    obtain ⟨hm, hle, hall⟩ := foldl_max_spec es a
    refine ⟨?_, ?_⟩
    · rcases hm with hm | hm
      · rw [hm]
        exact List.mem_cons_self _ _
      · exact List.mem_cons_of_mem _ hm
    · intro x hx
      rcases List.mem_cons.mp hx with rfl | hx
      · exact hle
      · exact hall x hx

theorem findIdx_spec {α : Type} (P : α → Bool) (d : α) :
    ∀ (l : List α) (s i : Nat), List.findIdx? P l s = some i →
      s ≤ i ∧ i - s < l.length ∧ P (l.getD (i - s) d) = true
        ∧ ∀ k, k < i - s → P (l.getD k d) = false := by
  intro l
  induction l with
  | nil => intro s i h; exact Option.noConfusion h
  | cons x xs ih =>
    intro s i h
    rw [List.findIdx?_cons] at h
    split at h
    · rename_i hx
      injection h with h
      subst h
      refine ⟨le_refl _, ?_, ?_, ?_⟩
      · rw [Nat.sub_self, List.length_cons]
        omega
      · rw [Nat.sub_self, List.getD_cons_zero]
        exact hx
      · intro k hk
        rw [Nat.sub_self] at hk
        exact absurd hk (by omega)
    · rename_i hx
      obtain ⟨h1, h2, h3, h4⟩ := ih (s + 1) i h
      refine ⟨by omega, ?_, ?_, ?_⟩
      · rw [List.length_cons]
        omega
      · rw [show i - s = (i - (s + 1)) + 1 by omega, List.getD_cons_succ]
        exact h3
      · intro k hk
        cases k with
        | zero =>
          rw [List.getD_cons_zero]
          cases hPx : P x
          · rfl
          · exact absurd hPx hx
        | succ k2 =>
          rw [List.getD_cons_succ]
          exact h4 k2 (by omega)

theorem bnot_eq_false {b : Bool} (h : (!b) = false) : b = true := by
  cases b
  · exact absurd h (by decide)
  · rfl

theorem shebang_not_mark (l : List Char)
    (h1 : (s2l "#!").isPrefixOf l = true)
    (h2 : (s2l "# spyce:").isPrefixOf l = true) : False := by
  rw [List.isPrefixOf_iff_prefix] at h1 h2
  obtain ⟨t1, e1⟩ := h1
  obtain ⟨t2, e2⟩ := h2
  have g1 : l.getD 1 'x' = '!' := by rw [← e1]; rfl
  have g2 : l.getD 1 'x' = ' ' := by rw [← e2]; rfl
  rw [g1] at g2
  exact absurd g2 (by decide)

theorem firstNonShebang_free (lines : List (List Char)) (jars : List (List Char × Jar))
    (hinv : JarsInv lines jars) (p : Int) (h : firstNonShebang lines = some p) :
    0 ≤ p ∧ p ≤ (lines.length : Int) ∧ ∀ q ∈ jars, p ≤ q.2.start := by
  cases hl : lines with
  | nil =>
    subst hl
    exact Option.noConfusion h
  | cons x xs =>
    subst hl
    unfold firstNonShebang at h
    cases hf : List.findIdx? (fun l => !((s2l "#!").isPrefixOf l)) (x :: xs) with
    | some i =>
      rw [hf] at h
      dsimp only at h
      injection h with h
      subst h
      obtain ⟨h1, h2, h3, h4⟩ := findIdx_spec (fun l => !((s2l "#!").isPrefixOf l)) []
        (x :: xs) 0 i hf
      rw [Nat.sub_zero] at h2 h3
      refine ⟨by omega, by rw [List.length_cons] at h2 ⊢; omega, ?_⟩
      intro q hq
      by_contra hcon
      push_neg at hcon
      obtain ⟨hv1, hv2, hv3⟩ := hinv.valid q hq
      have hk : q.2.start.toNat < i := by omega
      have hp1 := bnot_eq_false (h4 q.2.start.toNat (by omega))
      have hh := hinv.headMark q hq
      exact shebang_not_mark _ hp1 hh
    | none =>
      rw [hf] at h
      dsimp only at h
      injection h with h
      subst h
      have hall := List.findIdx?_eq_none_iff.mp hf
      refine ⟨by rw [List.length_cons]; omega, by omega, ?_⟩
      intro q hq
      exfalso
      obtain ⟨hv1, hv2, hv3⟩ := hinv.valid q hq
      have hmem : (x :: xs).getD q.2.start.toNat [] ∈ (x :: xs) := by
        have hlt : q.2.start.toNat < (x :: xs).length := by
          rw [List.length_cons] at hv3 ⊢
          omega
        rw [List.getD_eq_getElem _ _ hlt]
        exact List.getElem_mem _
      have hsb := bnot_eq_false (hall _ hmem)
      have hh := hinv.headMark q hq
      exact shebang_not_mark _ hsb hh

theorem placement_free (st : SFile) (sec : SSec) (p : Int) (hcore : SCore st)
    (h : placement st sec = some p) :
    0 ≤ p ∧ p ≤ (st.lines.length : Int)
      ∧ ∀ q ∈ st.jars, q.2.stop ≤ p ∨ p ≤ q.2.start := by
  unfold placement at h
  cases hm : maxEnds (st.jars.filterMap
      (fun q => if q.2.sec = sec then some q.2.stop else none)) with
  | some e =>
    rw [hm] at h
    dsimp only at h
    injection h with h
    subst h
    obtain ⟨hmem, hmax⟩ := maxEnds_spec _ e hm
    rw [List.mem_filterMap] at hmem
    obtain ⟨q0, hq0, hq0e⟩ := hmem
    have he : e = q0.2.stop := by
      by_cases hs : q0.2.sec = sec
      · rw [if_pos hs] at hq0e
        injection hq0e with hq0e
        exact hq0e.symm
      · rw [if_neg hs] at hq0e
        exact Option.noConfusion hq0e
    obtain ⟨hv1, hv2, hv3⟩ := hcore.jars.valid q0 hq0
    refine ⟨by omega, by omega, ?_⟩
    intro q hq
    by_cases heq : q0 = q
    · subst heq
      exact Or.inl (by omega)
    · have hd := List.Pairwise.forall (fun a b hab => Or.symm hab) hcore.jars.disj hq0 hq heq
      replace hd : q0.2.stop ≤ q.2.start ∨ q.2.stop ≤ q0.2.start := hd
      obtain ⟨hw1, hw2, hw3⟩ := hcore.jars.valid q hq
      rcases hd with hd | hd
      · exact Or.inr (by omega)
      · exact Or.inl (by omega)
  | none =>
    rw [hm] at h
    dsimp only at h
    cases sec with
    | source =>
      rw [show secAnchor st SSec.source = none from hcore.secS] at h
      dsimp only at h
      obtain ⟨h1, h2, h3⟩ := firstNonShebang_free st.lines st.jars hcore.jars p h
      exact ⟨h1, h2, fun q hq => Or.inr (h3 q hq)⟩
    | data =>
      rw [show secAnchor st SSec.data = none from hcore.secD] at h
      dsimp only at h
      injection h with h
      subst h
      refine ⟨by omega, by omega, ?_⟩
      intro q hq
      obtain ⟨hv1, hv2, hv3⟩ := hcore.jars.valid q hq
      exact Or.inl (by omega)

theorem delItem_SInv (st : SFile) (n : List Char) (st' : SFile)
    (tr : List (List Char × SpyceV))
    (hinv : SInv st tr) (h : delItem st n = some st') : SInv st' (aremove n tr) := by
  refine ⟨delItem_core st n st' hinv.core h, ?_, ?_⟩
  · exact hinv.trNodup.sublist (List.Sublist.map _ (aremove_sublist n tr))
  · intro q hq
    obtain ⟨hq1, hq2⟩ := aremove_mem n tr hinv.trNodup q hq
    exact delItem_trok st n st' q hinv.core h hq2 (hinv.trOk q hq1)

theorem setItem_SInv (st : SFile) (sv : SpyceV) (st' : SFile)
    (tr : List (List Char × SpyceV))
    (hinv : SInv st tr) (h : setItem st sv = some st') :
    SInv st' (aset sv.name sv tr) := by
  unfold setItem at h
  dsimp only at h
  have hcore0 : SCore { st with contentVersion := st.contentVersion + 1 } :=
    ⟨hinv.core.jars, hinv.core.secS, hinv.core.secD⟩
  cases hl : alookup sv.name st.jars with
  | some old =>
    rw [hl] at h
    dsimp only at h
    cases hd : delItem { st with contentVersion := st.contentVersion + 1 } sv.name with
    | none =>
      rw [hd] at h
      exact Option.noConfusion h
    | some st1 =>
      rw [hd] at h
      dsimp only at h
      injection h with h
      subst h
      have hcore1 := delItem_core _ _ _ hcore0 hd
      obtain ⟨j, haj, hnone, hfree, hj0, hjl⟩ := delItem_free _ _ _ hcore0 hd
      have hje : j = old := by
        have hsame : alookup sv.name st.jars = some j := haj
        rw [hl] at hsame
        injection hsame with hsame
        exact hsame.symm
      subst hje
      refine ⟨insertBlock_core st1 sv j.start hcore1 hj0 hjl hfree hnone, ?_, ?_⟩
      · exact aset_keys_nodup _ _ _ hinv.trNodup
      · intro q hq
        rcases mem_aset _ _ _ hinv.trNodup q hq with rfl | ⟨hq1, hq2⟩
        · exact insertBlock_trok_new st1 sv j.start hj0 hjl
        · have ht0 : TrOk { st with contentVersion := st.contentVersion + 1 } q :=
            hinv.trOk q hq1
          have ht1 := delItem_trok _ sv.name st1 q hcore0 hd hq2 ht0
          exact insertBlock_trok st1 sv j.start q hcore1 hj0 hjl hfree hq2 ht1
  | none =>
    rw [hl] at h
    dsimp only at h
    cases hp : placement { st with contentVersion := st.contentVersion + 1 } sv.sec with
    | none =>
      rw [hp] at h
      exact Option.noConfusion h
    | some p =>
      rw [hp] at h
      dsimp only at h
      injection h with h
      subst h
      obtain ⟨h1, h2, h3⟩ := placement_free _ sv.sec p hcore0 hp
      refine ⟨insertBlock_core _ sv p hcore0 h1 h2 h3 hl, ?_, ?_⟩
      · exact aset_keys_nodup _ _ _ hinv.trNodup
      · intro q hq
        rcases mem_aset _ _ _ hinv.trNodup q hq with rfl | ⟨hq1, hq2⟩
        · exact insertBlock_trok_new _ sv p h1 h2
        · exact insertBlock_trok _ sv p q hcore0 h1 h2 h3 hq2 (hinv.trOk q hq1)

theorem applyOps_SInv :
    ∀ (ops : List Op) (st : SFile) (tr : List (List Char × SpyceV)) (st' : SFile),
      SInv st tr → applyOps ops st = some st' →
      SInv st' (ops.foldl (fun tr op => trackStep op tr) tr) := by
  intro ops
  induction ops with
  | nil =>
    intro st tr st' hinv h
    rw [applyOps] at h
    injection h with h
    subst h
    exact hinv
  | cons op ops ih =>
    intro st tr st' hinv h
    rw [applyOps] at h
    rw [List.foldl_cons]
    cases ha : applyOp op st with
    | none =>
      rw [ha] at h
      exact Option.noConfusion h
    | some st1 =>
      rw [ha] at h
      dsimp only at h
      cases op with
      | set sv => exact ih st1 (aset sv.name sv tr) st' (setItem_SInv st sv st1 tr hinv ha) h
      | del n => exact ih st1 (aremove n tr) st' (delItem_SInv st n st1 tr hinv ha) h

/-- The `_parse_lines` loop invariant after `idx` lines: stored jars
satisfy the structural invariant bounded by `idx`, and the open jar (if
any) has a fresh name, a marker start line, its conf lines before `idx`,
and lies after every stored jar. -/
structure PInv (lines : List (List Char)) (idx : Nat) (st : PSt) : Prop where
  key : ∀ p ∈ st.jars, p.2.name = p.1
  nodup : (st.jars.map Prod.fst).Nodup
  valid : ∀ p ∈ st.jars, 0 ≤ p.2.start ∧ p.2.start < p.2.stop ∧ p.2.stop ≤ (idx : Int)
  disj : st.jars.Pairwise (fun p q => JarDisj p.2 q.2)
  headMark : ∀ p ∈ st.jars, (s2l "# spyce:").isPrefixOf (lineAt lines p.2.start) = true
  curOk : ∀ oj, st.cur = some oj →
    alookup oj.name st.jars = none
    ∧ 0 ≤ oj.start
    ∧ oj.start + (oj.numParams : Int) + 1 ≤ (idx : Int)
    ∧ (∀ p ∈ st.jars, p.2.stop ≤ oj.start)
    ∧ (s2l "# spyce:").isPrefixOf (lineAt lines oj.start) = true

theorem PInv_mono (lines : List (List Char)) (idx n : Nat) (st : PSt)
    (h : PInv lines idx st) (hle : idx ≤ n) : PInv lines n st := by
  refine ⟨h.key, h.nodup, ?_, h.disj, h.headMark, ?_⟩
  · intro p hp
    obtain ⟨h1, h2, h3⟩ := h.valid p hp
    exact ⟨h1, h2, by omega⟩
  · intro oj hoj
    obtain ⟨h1, h2, h3, h4, h5⟩ := h.curOk oj hoj
    exact ⟨h1, h2, by omega, h4, h5⟩

theorem setSecIdx_jars (st : PSt) (s : SSec) (i : Int) : (setSecIdx st s i).jars = st.jars := by
  cases s <;> rfl

theorem setSecIdx_cur (st : PSt) (s : SSec) (i : Int) : (setSecIdx st s i).cur = st.cur := by
  cases s <;> rfl

theorem matchSpyce_pfx (l : List Char) (m : MSpyce) (h : matchSpyce l = some m) :
    (s2l "# spyce:").isPrefixOf l = true := by
  unfold matchSpyce at h
  cases hd : dropLit (s2l "# spyce:") l with
  | none => rw [hd] at h; exact Option.noConfusion h
  | some r => exact dropLit_pfx _ _ _ hd

theorem storeCur_inv (lines : List (List Char)) (n idx : Nat) (st : PSt) (oj : OJar)
    (stop : Int) (hinv : PInv lines idx st) (hcur : st.cur = some oj)
    (hidx : idx ≤ n) (hlo : oj.start < stop) (hhi : stop ≤ (n : Int)) :
    PInv lines n (storeCur st oj stop) := by
  obtain ⟨hnone, h0, hb, hstops, hhm⟩ := hinv.curOk oj hcur
  have hj : (storeCur st oj stop).jars
      = st.jars ++ [(oj.name, ⟨oj.sec, oj.name, oj.ty, oj.start, stop, oj.numParams⟩)] := by
    show aset oj.name ⟨oj.sec, oj.name, oj.ty, oj.start, stop, oj.numParams⟩ st.jars
      = st.jars ++ [(oj.name, ⟨oj.sec, oj.name, oj.ty, oj.start, stop, oj.numParams⟩)]
    exact aset_fresh _ _ _ hnone
  refine ⟨?_, ?_, ?_, ?_, ?_, ?_⟩
  · intro p hp
    rw [hj] at hp
    rcases List.mem_append.mp hp with hp | hp
    · exact hinv.key p hp
    · rw [List.mem_singleton] at hp
      subst hp
      rfl
  · rw [hj, List.map_append, List.nodup_append]
    refine ⟨hinv.nodup, List.nodup_singleton _, ?_⟩
    intro x hx hx2
    rw [show List.map Prod.fst
        [(oj.name, (⟨oj.sec, oj.name, oj.ty, oj.start, stop, oj.numParams⟩ : Jar))]
        = [oj.name] from rfl, List.mem_singleton] at hx2
    subst hx2
    rw [List.mem_map] at hx
    obtain ⟨p, hp2, hpe⟩ := hx
    exact (alookup_none_iff _ _).mp hnone p hp2 hpe
  · intro p hp
    rw [hj] at hp
    rcases List.mem_append.mp hp with hp | hp
    · obtain ⟨h1, h2, h3⟩ := hinv.valid p hp
      exact ⟨h1, h2, by omega⟩
    · rw [List.mem_singleton] at hp
      subst hp
      exact ⟨h0, hlo, hhi⟩
  · rw [hj, List.pairwise_append]
    refine ⟨hinv.disj, List.pairwise_singleton _ _, ?_⟩
    intro a ha b hb
    rw [List.mem_singleton] at hb
    subst hb
    exact Or.inl (hstops a ha)
  · intro p hp
    rw [hj] at hp
    rcases List.mem_append.mp hp with hp | hp
    · exact hinv.headMark p hp
    · rw [List.mem_singleton] at hp
      subst hp
      exact hhm
  · intro oj2 hoj2
    exact Option.noConfusion hoj2

theorem parseStep_inv (lines : List (List Char)) (idx : Nat) (st st' : PSt)
    (hinv : PInv lines idx st)
    (h : parseStep idx (lines.getD idx []) st = .ok st') :
    PInv lines (idx + 1) st' := by
  unfold parseStep at h
  cases hsec : matchSection (lines.getD idx []) with
  | some s =>
    rw [hsec] at h
    dsimp only at h
    injection h with h
    subst h
    have hm := PInv_mono lines idx (idx + 1) st hinv (by omega)
    refine ⟨?_, ?_, ?_, ?_, ?_, ?_⟩
    · rw [setSecIdx_jars]
      exact hm.key
    · rw [setSecIdx_jars]
      exact hm.nodup
    · rw [setSecIdx_jars]
      exact hm.valid
    · rw [setSecIdx_jars]
      exact hm.disj
    · rw [setSecIdx_jars]
      exact hm.headMark
    · intro oj hoj
      rw [setSecIdx_cur] at hoj
      rw [setSecIdx_jars]
      exact hm.curOk oj hoj
  | none =>
    rw [hsec] at h
    dsimp only at h
    cases hsp : matchSpyce (lines.getD idx []) with
    | some m =>
      rw [hsp] at h
      dsimp only at h
      have hpfx : (s2l "# spyce:").isPrefixOf (lines.getD idx []) = true :=
        matchSpyce_pfx _ _ hsp
      split at h
      · -- start marker
        rename_i hstart
        cases hcur : st.cur with
        | some oj =>
          rw [hcur] at h
          dsimp only at h
          obtain ⟨hc1, hc2, hc3, hc4, hc5⟩ := hinv.curOk oj hcur
          have hinv1 : PInv lines idx (storeCurAuto st oj) :=
            storeCur_inv lines idx idx st oj (oj.start + (oj.numParams : Int) + 1) hinv hcur
              (le_refl idx) (by omega) (by omega)
          cases hty : resolveTy m.sec m.ty with
          | none =>
            rw [hty] at h
            exact Except.noConfusion h
          | some ty =>
            rw [hty] at h
            dsimp only at h
            cases hlk : alookup m.name (storeCurAuto st oj).jars with
            | some j2 =>
              rw [hlk] at h
              exact Except.noConfusion h
            | none =>
              rw [hlk] at h
              dsimp only at h
              injection h with h
              subst h
              have hm1 := PInv_mono lines idx (idx + 1) (storeCurAuto st oj) hinv1 (by omega)
              refine ⟨hm1.key, hm1.nodup, hm1.valid, hm1.disj, hm1.headMark, ?_⟩
              intro oj2 hoj2
              injection hoj2 with hoj2
              subst hoj2
              refine ⟨hlk, by dsimp only; omega, by dsimp only; push_cast; omega, ?_, ?_⟩
              · intro p hp
                obtain ⟨hv1, hv2, hv3⟩ := hinv1.valid p hp
                dsimp only
                exact hv3
              · dsimp only
                unfold lineAt
                rw [Int.toNat_natCast]
                exact hpfx
        | none =>
          rw [hcur] at h
          dsimp only at h
          cases hty : resolveTy m.sec m.ty with
          | none =>
            rw [hty] at h
            exact Except.noConfusion h
          | some ty =>
            rw [hty] at h
            dsimp only at h
            cases hlk : alookup m.name st.jars with
            | some j2 =>
              rw [hlk] at h
              exact Except.noConfusion h
            | none =>
              rw [hlk] at h
              dsimp only at h
              injection h with h
              subst h
              have hm1 := PInv_mono lines idx (idx + 1) st hinv (by omega)
              refine ⟨hm1.key, hm1.nodup, hm1.valid, hm1.disj, hm1.headMark, ?_⟩
              intro oj2 hoj2
              injection hoj2 with hoj2
              subst hoj2
              refine ⟨hlk, by dsimp only; omega, by dsimp only; push_cast; omega, ?_, ?_⟩
              · intro p hp
                obtain ⟨hv1, hv2, hv3⟩ := hinv.valid p hp
                dsimp only
                exact hv3
              · dsimp only
                unfold lineAt
                rw [Int.toNat_natCast]
                exact hpfx
      · -- end marker
        rename_i hstart
        cases hcur : st.cur with
        | none =>
          rw [hcur] at h
          exact Except.noConfusion h
        | some oj =>
          rw [hcur] at h
          dsimp only at h
          obtain ⟨hc1, hc2, hc3, hc4, hc5⟩ := hinv.curOk oj hcur
          split at h
          · injection h with h
            subst h
            exact storeCur_inv lines (idx + 1) idx st oj ((idx : Int) + 1) hinv hcur (by omega)
              (by omega) (by push_cast; omega)
          · exact Except.noConfusion h
    | none =>
      rw [hsp] at h
      dsimp only at h
      cases hcf : matchConf (lines.getD idx []) with
      | some kv =>
        rw [hcf] at h
        dsimp only at h
        cases hcur : st.cur with
        | none =>
          rw [hcur] at h
          exact Except.noConfusion h
        | some oj =>
          rw [hcur] at h
          dsimp only at h
          obtain ⟨hc1, hc2, hc3, hc4, hc5⟩ := hinv.curOk oj hcur
          split at h
          · rename_i hpos
            injection h with h
            subst h
            refine ⟨hinv.key, hinv.nodup, ?_, hinv.disj, hinv.headMark, ?_⟩
            · intro p hp
              obtain ⟨hv1, hv2, hv3⟩ := hinv.valid p hp
              exact ⟨hv1, hv2, by omega⟩
            · intro oj2 hoj2
              injection hoj2 with hoj2
              subst hoj2
              refine ⟨hc1, hc2, by dsimp only; push_cast; omega, hc4, hc5⟩
          · exact Except.noConfusion h
      | none =>
        rw [hcf] at h
        dsimp only at h
        injection h with h
        subst h
        exact PInv_mono lines idx (idx + 1) st hinv (by omega)

theorem parseLoop_inv (lines : List (List Char)) :
    ∀ (rest : List (List Char)) (idx : Nat) (st st' : PSt),
      rest = lines.drop idx → idx ≤ lines.length →
      PInv lines idx st →
      parseLoop idx rest st = .ok st' →
      PInv lines lines.length st' := by
  intro rest
  induction rest with
  | nil =>
    intro idx st st' hdrop hle hinv h
    rw [parseLoop] at h
    injection h with h
    subst h
    have hlen : idx = lines.length := by
      have hl := congrArg List.length hdrop
      rw [List.length_drop] at hl
      simp only [List.length_nil] at hl
      omega
    rw [← hlen]
    exact hinv
  | cons l rest2 ih =>
    intro idx st st' hdrop hle hinv h
    rw [parseLoop] at h
    have hlt : idx < lines.length := by
      have hl := congrArg List.length hdrop
      rw [List.length_drop, List.length_cons] at hl
      omega
    have hd2 := List.drop_eq_getElem_cons hlt
    rw [hd2] at hdrop
    have hl2 : l = lines.getD idx [] := by
      rw [List.getD_eq_getElem lines [] hlt]
      exact (List.cons.injEq _ _ _ _ ▸ hdrop).1
    have hrest : rest2 = lines.drop (idx + 1) :=
      (List.cons.injEq _ _ _ _ ▸ hdrop).2
    cases hps : parseStep idx l st with
    | error e =>
      rw [hps] at h
      exact Except.noConfusion h
    | ok st1 =>
      rw [hps] at h
      dsimp only at h
      rw [hl2] at hps
      exact ih (idx + 1) st1 st' hrest (by omega)
        (parseStep_inv lines idx st st1 hinv hps) h

theorem parseLines_JarsInv (lines : List (List Char)) (pst : PSt)
    (h : parseLines lines = .ok pst) : JarsInv lines pst.jars := by
  unfold parseLines at h
  cases hp : parseLoop 0 lines initPSt with
  | error e =>
    rw [hp] at h
    exact Except.noConfusion h
  | ok st =>
    rw [hp] at h
    dsimp only at h
    injection h with h
    subst h
    have hinv0 : PInv lines 0 initPSt := by
      refine ⟨?_, ?_, ?_, ?_, ?_, ?_⟩
      · intro p hp2
        exact absurd hp2 (List.not_mem_nil p)
      · exact List.nodup_nil
      · intro p hp2
        exact absurd hp2 (List.not_mem_nil p)
      · exact List.Pairwise.nil
      · intro p hp2
        exact absurd hp2 (List.not_mem_nil p)
      · intro oj hoj
        exact Option.noConfusion hoj
    have hend := parseLoop_inv lines lines 0 initPSt st (by rw [List.drop_zero]) (by omega)
      hinv0 hp
    unfold finalizePSt
    cases hcur : st.cur with
    | none => exact ⟨hend.key, hend.nodup, hend.valid, hend.disj, hend.headMark⟩
    | some oj =>
      obtain ⟨hc1, hc2, hc3, hc4, hc5⟩ := hend.curOk oj hcur
      have hst := storeCur_inv lines lines.length lines.length st oj
        (oj.start + (oj.numParams : Int) + 1) hend hcur (le_refl _) (by omega) (by omega)
      exact ⟨hst.key, hst.nodup, hst.valid, hst.disj, hst.headMark⟩

theorem parseSFile_SInv (lines : List (List Char)) (st0 : SFile)
    (h : parseSFile lines = .ok st0) (hs : st0.secSource = none)
    (hd : st0.secData = none) : SInv st0 [] := by
  unfold parseSFile at h
  cases hp : parseLines lines with
  | error e =>
    rw [hp] at h
    exact Except.noConfusion h
  | ok pst =>
    rw [hp] at h
    dsimp only at h
    injection h with h
    subst h
    refine ⟨⟨parseLines_JarsInv lines pst hp, hs, hd⟩, List.nodup_nil, ?_⟩
    intro q hq
    exact absurd hq (List.not_mem_nil q)

theorem sliceN_sub {α : Type} (xs : List α) (s a b L : Nat) (hb : b ≤ L) :
    sliceN xs (s + a) (s + b) = sliceN (sliceN xs s (s + L)) a b := by
  unfold sliceN
  rw [show s + L - s = L by omega, List.drop_take, List.take_take,
    show min (b - a) (L - a) = b - a by omega, List.drop_drop,
    show s + b - (s + a) = b - a by omega]

theorem mkBlock_slice (sv : SpyceV) :
    sliceN (mkBlock sv) (1 + sv.conf.length) ((mkBlock sv).length - 1)
      = encodeContent sv := by
  unfold sliceN
  rw [mkBlock_length,
    show (2 + sv.conf.length + (encodeContent sv).length - 1 - (1 + sv.conf.length))
      = (encodeContent sv).length by omega]
  unfold mkBlock
  rw [show 1 + sv.conf.length = sv.conf.length + 1 by omega, List.drop_succ_cons,
    List.append_assoc,
    show sv.conf.length = (sv.conf.map (fun kv => s2l "# spyce: conf: " ++ kv.1
      ++ s2l "=" ++ kv.2 ++ ['\n'])).length from (List.length_map _ _).symm,
    List.drop_left, List.take_left]

theorem trok_stripped (st : SFile) (q : List Char × SpyceV) (j : Jar)
    (hcore : SCore st) (hlook : alookup q.1 st.jars = some j)
    (hstop : j.stop = j.start + ((mkBlock q.2).length : Int))
    (hslice : sliceL st.lines j.start j.stop = mkBlock q.2) :
    strippedSlice st j q.2.conf.length = encodeContent q.2 := by
  have hmem : (q.1, j) ∈ st.jars := alookup_mem _ _ _ hlook
  obtain ⟨h0, h1, h2⟩ := hcore.jars.valid _ hmem
  replace h0 : (0 : Int) ≤ j.start := h0
  replace h1 : j.start < j.stop := h1
  have hL := mkBlock_length q.2
  unfold strippedSlice
  rw [sliceL_eq_sliceN _ _ _ (by omega)]
  rw [show (j.start + 1 + (q.2.conf.length : Int)).toNat
      = j.start.toNat + (1 + q.2.conf.length) by omega,
    show (j.stop - 1).toNat = j.start.toNat + ((mkBlock q.2).length - 1) by omega,
    sliceN_sub st.lines j.start.toNat (1 + q.2.conf.length) ((mkBlock q.2).length - 1)
      ((mkBlock q.2).length) (by omega)]
  rw [show j.start.toNat + (mkBlock q.2).length = j.stop.toNat by omega]
  rw [← sliceL_eq_sliceN st.lines j.start j.stop h0, hslice]
  exact mkBlock_slice q.2

theorem mem_aset_weak {β : Type} (k : List Char) (v : β) (l : List (List Char × β))
    (q : List Char × β) (hq : q ∈ aset k v l) : q = (k, v) ∨ q ∈ l := by
  induction l with
  | nil =>
    rw [aset] at hq
    exact Or.inl (List.mem_singleton.mp hq)
  | cons p rest ih =>
    rw [aset] at hq
    by_cases hk : p.1 = k
    · rw [if_pos hk] at hq
      rcases List.mem_cons.mp hq with rfl | hq2
      · exact Or.inl rfl
      · exact Or.inr (List.mem_cons_of_mem _ hq2)
    · rw [if_neg hk] at hq
      rcases List.mem_cons.mp hq with rfl | hq2
      · exact Or.inr (List.mem_cons_self _ _)
      · rcases ih hq2 with h2 | h2
        · exact Or.inl h2
        · exact Or.inr (List.mem_cons_of_mem _ h2)

theorem trackFold_mem (ops : List Op) :
    ∀ (tr : List (List Char × SpyceV)) (q : List Char × SpyceV),
      q ∈ ops.foldl (fun tr op => trackStep op tr) tr →
      q ∈ tr ∨ Op.set q.2 ∈ ops := by
  induction ops with
  | nil =>
    intro tr q h
    rw [List.foldl_nil] at h
    exact Or.inl h
  | cons op ops ih =>
    intro tr q h
    rw [List.foldl_cons] at h
    rcases ih (trackStep op tr) q h with h1 | h1
    · cases op with
      | set sv =>
        rcases mem_aset_weak sv.name sv tr q h1 with rfl | h2
        · exact Or.inr (List.mem_cons_self _ _)
        · exact Or.inl h2
      | del n => exact Or.inl ((aremove_sublist n tr).subset h1)
    · exact Or.inr (List.mem_cons_of_mem _ h1)

/-- C2, corrected: starting from a successfully parsed file in which no
section anchor was recorded, after any finite sequence of
`__setitem__`/`__delitem__` operations (with bytes contents that are true
byte values) that the code completes without error, every remaining
region is a valid nonempty `[start, stop)` slice of the line buffer, the
regions are pairwise disjoint, and for every name whose content was last
set and not deleted since, the slice of its region stripped of the start
marker, its conf lines and the end marker decodes to exactly the content
for bytes spyces, and to the content plus one trailing newline for text
spyces. -/
theorem C2_theorem (fileLines : List (List Char)) (st0 : SFile)
    (hparse : parseSFile fileLines = Except.ok st0)
    (hsecS : st0.secSource = none) (hsecD : st0.secData = none)
    (ops : List Op) (st' : SFile)
    (happly : applyOps ops st0 = some st')
    (hwf : ∀ op ∈ ops, opWF op = true) :
    (∀ p ∈ st'.jars, 0 ≤ p.2.start ∧ p.2.start < p.2.stop
        ∧ p.2.stop ≤ (st'.lines.length : Int))
    ∧ st'.jars.Pairwise (fun p q => JarDisj p.2 q.2)
    ∧ ∀ nm sv, (nm, sv) ∈ trackOps ops →
        ∃ j, alookup nm st'.jars = some j
          ∧ (match sv.content with
             | CVal.text s =>
                TextSpyce.decode (strippedSlice st' j sv.conf.length) = s ++ ['\n']
             | CVal.bytes b =>
                BytesSpyce.decode (strippedSlice st' j sv.conf.length) = some b) := by
  have hsinv : SInv st' (trackOps ops) :=
    applyOps_SInv ops st0 [] st' (parseSFile_SInv fileLines st0 hparse hsecS hsecD) happly
  refine ⟨hsinv.core.jars.valid, hsinv.core.jars.disj, ?_⟩
  intro nm sv hmem
  obtain ⟨hname, j, hlook, hstop, hslice⟩ := hsinv.trOk (nm, sv) hmem
  refine ⟨j, hlook, ?_⟩
  have hstr := trok_stripped st' (nm, sv) j hsinv.core hlook hstop hslice
  cases hc : sv.content with
  | text s =>
    dsimp only
    rw [hstr]
    unfold encodeContent
    rw [hc]
    exact text_roundtrip s
  | bytes b =>
    dsimp only
    rw [hstr]
    unfold encodeContent
    rw [hc]
    have hset : Op.set sv ∈ ops := by
      rcases trackFold_mem ops [] (nm, sv) hmem with h1 | h1
      · exact absurd h1 (List.not_mem_nil _)
      · exact h1
    have hb : ∀ x ∈ b, x < 256 := by
      have hw := hwf _ hset
      unfold opWF at hw
      dsimp only at hw
      rw [hc] at hw
      simp only [List.all_eq_true, decide_eq_true_eq] at hw
      exact hw
    exact bytes_roundtrip_general 120 b hb

/-- C2, counterexample to the claim as stated: (a) on the one-line file
`x\n`, setting the text spyce `source/a` to `Y` leaves a region whose
stripped slice decodes to `Y\n`, not to the content `Y` that was set; (b)
on a file whose second line is a `data` section marker, setting a source
text spyce inserts at the marker index without shifting the recorded
anchor, and a following fresh `data` set is placed inside the first
region, so the two remaining regions overlap. -/
theorem C2_counterexample :
    (∃ st0 st', parseSFile [s2l "x\n"] = Except.ok st0
      ∧ applyOps [Op.set ⟨SSec.source, s2l "a", CVal.text (s2l "Y"), []⟩] st0 = some st'
      ∧ (∀ op ∈ [Op.set (⟨SSec.source, s2l "a", CVal.text (s2l "Y"), []⟩ : SpyceV)],
          opWF op = true)
      ∧ ∃ j, alookup (s2l "a") st'.jars = some j
        ∧ TextSpyce.decode (strippedSlice st' j 0) ≠ s2l "Y")
    ∧ (∃ st0 st', parseSFile [s2l "#!sh\n", s2l "# spyce: section data\n"] = Except.ok st0
      ∧ applyOps [Op.set ⟨SSec.source, s2l "a", CVal.text (s2l "Y"), []⟩,
          Op.set ⟨SSec.data, s2l "b", CVal.bytes [], []⟩] st0 = some st'
      ∧ (∀ op ∈ [Op.set (⟨SSec.source, s2l "a", CVal.text (s2l "Y"), []⟩ : SpyceV),
          Op.set (⟨SSec.data, s2l "b", CVal.bytes [], []⟩ : SpyceV)], opWF op = true)
      ∧ ∃ ja jb, alookup (s2l "a") st'.jars = some ja
        ∧ alookup (s2l "b") st'.jars = some jb ∧ ¬ JarDisj ja jb) := by
  refine ⟨⟨_, _, rfl, rfl, by decide, _, rfl, by decide⟩,
    ⟨_, _, rfl, rfl, by decide, _, _, rfl, rfl, by unfold JarDisj; decide⟩⟩

theorem C2_witness :
    ∃ st' , applyOps [Op.set ⟨SSec.source, s2l "a", CVal.text (s2l "Y"), []⟩]
        (mkSFile [s2l "x\n"] ⟨[], none, none, none⟩) = some st'
      ∧ ((∀ p ∈ st'.jars, 0 ≤ p.2.start ∧ p.2.start < p.2.stop
          ∧ p.2.stop ≤ (st'.lines.length : Int))
        ∧ st'.jars.Pairwise (fun p q => JarDisj p.2 q.2)
        ∧ ∀ nm sv,
            (nm, sv) ∈ trackOps [Op.set ⟨SSec.source, s2l "a", CVal.text (s2l "Y"), []⟩] →
            ∃ j, alookup nm st'.jars = some j
              ∧ (match sv.content with
                 | CVal.text s =>
                    TextSpyce.decode (strippedSlice st' j sv.conf.length) = s ++ ['\n']
                 | CVal.bytes b =>
                    BytesSpyce.decode (strippedSlice st' j sv.conf.length) = some b)) := by
  refine ⟨_, rfl, C2_theorem [s2l "x\n"] (mkSFile [s2l "x\n"] ⟨[], none, none, none⟩) rfl rfl
    rfl [Op.set ⟨SSec.source, s2l "a", CVal.text (s2l "Y"), []⟩] _ rfl (by decide)⟩
